import Mathlib

/-!
# synthexp: random synthesis of strings from a regular-expression tree

A shallow embedding of `synthexp.go`.

* A Go `[]rune` is an `Option (List Int)`: `none` is the `nil` slice, `some l` a non-nil
  slice with elements `l` (`some []` is `[]rune{}`).  The generator signals failure by
  returning `nil`, so the difference between `none` and `some []` is part of the model.
* `rune` is `int32`, carried as `Int`; `Min`, `Max`, `Cap` are Go `int`, carried as `Int`.
  The two places where the machine width shows are modelled: the `int32` length and loop
  variable of `expandRange`, and the `int` subtraction `max - min` of `synthRepeat`
  (`subGoInt`).
* `math/rand` is an explicit stream of draws; `rand.Intn n` takes the next draw modulo `n`
  and panics for `n ≤ 0`.
* A run-time panic is the fault `Fault.panic`.  The recursion of `synth` on the tree is
  driven by a fuel argument; `Regexp.depth re + 1` is always enough (`synth_fuel_enough`).
* The number of child generations of a repetition node is a ghost counter next to the
  outcome (`synthC`, with `synthC_fst`).
* The conversions between strings and rune slices of `SynthString` and `SynthBytes` are
  built-ins of Go and a parameter of the model (`Utf8`).
-/

namespace Synthexp

/-- A Go `[]rune`: `none` is `nil`, `some l` is a non-nil slice. -/
abbrev Slice := Option (List Int)

/-- The stream of raw draws of the random source. -/
abbrev Rand := Nat → Nat

/-- The random source after one draw has been taken. -/
def Rand.tail (g : Rand) : Rand := fun i => g (i + 1)

/-- What stops a run: a Go run-time panic, or the fuel of the model running out. -/
inductive Fault where
  | panic
  | noFuel
  deriving DecidableEq, Repr

/-- Outcome of a generator: the returned slice and the remaining random source. -/
abbrev Outcome := Except Fault (Slice × Rand)

instance : DecidableEq (Except Fault Slice) := fun a b =>
  match a, b with
  | .ok x, .ok y => if h : x = y then isTrue (by rw [h]) else isFalse (fun e => h (by cases e; rfl))
  | .error x, .error y =>
    if h : x = y then isTrue (by rw [h]) else isFalse (fun e => h (by cases e; rfl))
  | .ok _, .error _ => isFalse (fun e => by cases e)
  | .error _, .ok _ => isFalse (fun e => by cases e)

/-- The slice a run returned, without the random source. -/
def value (o : Outcome) : Except Fault Slice :=
  match o with
  | .ok (r, _) => .ok r
  | .error e => .error e

/-- Go `unicode.MaxRune`. -/
def MaxRune : Int := 1114111

/-- Largest `int32`. -/
def maxInt32 : Int := 2147483647

/-- Largest Go `int` (64 bits). -/
def maxInt64 : Int := 9223372036854775807

/-- Go `a - b` on `int`, for `b ≤ a`.  The difference of two `int`s with `b ≤ a` exceeds the
largest `int` only when `b` is negative, and then it wraps around by `2^64`, to a negative
number. -/
def subGoInt (a b : Int) : Int :=
  if b < 0 ∧ maxInt64 < a - b then a - b - 18446744073709551616 else a - b

/-- Go `rand.Intn(n)`: panics if `n <= 0`, else a value in `[0, n)`. -/
def intn (n : Int) (g : Rand) : Except Fault (Int × Rand) :=
  if n ≤ 0 then .error .panic else .ok ((g 0 : Int) % n, g.tail)

/-- Go `len(s)`. -/
def Slice.len (s : Slice) : Nat :=
  match s with
  | none => 0
  | some l => l.length

/-- The elements of a slice (`nil` has none). -/
def Slice.toList (s : Slice) : List Int :=
  match s with
  | none => []
  | some l => l

/-- Go `append(res, r...)`: appending no element returns `res` itself, so `nil` stays
`nil`. -/
def goAppend (res r : Slice) : Slice :=
  match res, r with
  | none, none => none
  | none, some [] => none
  | none, some (x :: xs) => some (x :: xs)
  | some a, none => some a
  | some a, some b => some (a ++ b)

/-- The statement `if len(res) > 0 { prev = res[len(res)-1] }`: the new value of `prev`. -/
def updPrev (prev : Int) (res : Slice) : Int :=
  match res with
  | none => prev
  | some l =>
    match l.getLast? with
    | none => prev
    | some c => c

/-- Go `syntax.Op`, the node kinds of `regexp/syntax`. -/
inductive Op where
  | noMatch
  | emptyMatch
  | literal
  | charClass
  | anyCharNotNL
  | anyChar
  | beginLine
  | endLine
  | beginText
  | endText
  | wordBoundary
  | noWordBoundary
  | capture
  | star
  | plus
  | quest
  | repeatN
  | concat
  | alternate
  deriving DecidableEq, Repr

/-- Go `syntax.Regexp`, with the fields the generator reads: `Op`, `Sub`, `Rune`, `Min`, `Max`,
`Cap`. -/
inductive Regexp where
  | mk (op : Op) (sub : List Regexp) (rune : Slice) (min max cap : Int)

namespace Regexp

/-- Field `Op`. -/
def op : Regexp → Op
  | mk o _ _ _ _ _ => o

/-- Field `Sub`. -/
def sub : Regexp → List Regexp
  | mk _ s _ _ _ _ => s

/-- Field `Rune`. -/
def rune : Regexp → Slice
  | mk _ _ r _ _ _ => r

/-- Field `Min`. -/
def min : Regexp → Int
  | mk _ _ _ m _ _ => m

/-- Field `Max`. -/
def max : Regexp → Int
  | mk _ _ _ _ m _ => m

/-- Field `Cap`. -/
def cap : Regexp → Int
  | mk _ _ _ _ _ c => c

mutual
/-- Height of a tree: a node without children has depth 0. -/
def depth : Regexp → Nat
  | mk _ s _ _ _ _ => depthList s
/-- One more than the largest depth in a list of children, 0 for no children. -/
def depthList : List Regexp → Nat
  | [] => 0
  | r :: rs => Nat.max (depth r + 1) (depthList rs)
end

/-- A node without children and without payload, of kind `o`. -/
def leaf (o : Op) : Regexp := mk o [] none 0 0 0

/-- Node `Literal(s)`. -/
def lit (s : List Int) : Regexp := mk .literal [] (some s) 0 0 0

/-- Node `CharClass(ranges)`, the ranges as the flat list `lo0, hi0, lo1, hi1, ...`. -/
def cls (ranges : List Int) : Regexp := mk .charClass [] (some ranges) 0 0 0

/-- Node `Capture(index, child)`. -/
def capt (index : Int) (child : Regexp) : Regexp := mk .capture [child] none 0 0 index

/-- Node `Star(child)`. -/
def star (child : Regexp) : Regexp := mk .star [child] none 0 0 0

/-- Node `Plus(child)`. -/
def plus (child : Regexp) : Regexp := mk .plus [child] none 0 0 0

/-- Node `Quest(child)`. -/
def quest (child : Regexp) : Regexp := mk .quest [child] none 0 0 0

/-- Node `Repeat(child, min, max)`. -/
def rep (child : Regexp) (min max : Int) : Regexp := mk .repeatN [child] none min max 0

/-- Node `Concat(children)`. -/
def cat (children : List Regexp) : Regexp := mk .concat children none 0 0 0

/-- Node `Alternate(children)`. -/
def alt (children : List Regexp) : Regexp := mk .alternate children none 0 0 0

end Regexp

open Regexp

/-- Source variable `WordRunes`: `a`-`z`, `A`-`Z`, `0`-`9`. -/
def WordRunes : List Int :=
  [97, 98, 99, 100, 101, 102, 103, 104, 105, 106, 107, 108, 109, 110, 111, 112, 113, 114, 115,
   116, 117, 118, 119, 120, 121, 122, 65, 66, 67, 68, 69, 70, 71, 72, 73, 74, 75, 76, 77, 78,
   79, 80, 81, 82, 83, 84, 85, 86, 87, 88, 89, 90, 48, 49, 50, 51, 52, 53, 54, 55, 56, 57]

/-- Source variable `NonWordRunes`: the punctuation of the source, the line break (10)
last. -/
def NonWordRunes : List Int :=
  [32, 44, 46, 45, 59, 58, 95, 33, 34, 167, 36, 37, 38, 92, 47, 40, 41, 61, 63, 96, 180, 35,
   39, 43, 42, 125, 93, 91, 123, 10]

/-- Source variable `Alphabet = append(WordRunes, NonWordRunes...)`. -/
def Alphabet : List Int := WordRunes ++ NonWordRunes

/-- Source function `expandRange(from, to)`, the arguments written `lo` and `hi`.  The
arithmetic is `int32`: `make` panics when the length `to-from+1` does not fit, and when `to`
is the largest `int32` the loop variable wraps and the next store is out of range. -/
def expandRange (lo hi : Int) : Except Fault (List Int) :=
  let hi := if hi = MaxRune then 126 else hi
  let hi := if hi < lo then lo else hi
  if maxInt32 < hi - lo + 1 ∨ hi = maxInt32 then .error .panic
  else .ok ((List.range (hi - lo + 1).toNat).map (fun (k : Nat) => lo + Int.ofNat k))

/-- Source function `expandRanges(ranges)`: the loop `for i := 0; i < len(ranges)-1; i += 2`
takes the elements two at a time and leaves a last single one out. -/
def expandRanges : List Int → Except Fault (List Int)
  | lo :: hi :: rest =>
    match expandRange lo hi with
    | .error e => .error e
    | .ok l =>
      match expandRanges rest with
      | .error e => .error e
      | .ok ls => .ok (l ++ ls)
  | _ => .ok []

/-- Source function `synthNoMatch`. -/
def synthNoMatch (g : Rand) : Outcome := .ok (none, g)

/-- Source function `synthEmptyMatch`. -/
def synthEmptyMatch (g : Rand) : Outcome := .ok (some [], g)

/-- Source function `synthLiteral`. -/
def synthLiteral (re : Regexp) (g : Rand) : Outcome := .ok (re.rune, g)

/-- Source function `synthCharClass`. -/
def synthCharClass (re : Regexp) (g : Rand) : Outcome :=
  match expandRanges re.rune.toList with
  | .error e => .error e
  | .ok runes =>
    match intn runes.length g with
    | .error e => .error e
    | .ok (i, g1) =>
      match runes[i.toNat]? with
      | none => .error .panic
      | some c => .ok (some [c], g1)

/-- Source function `synthAnyCharNotNL`. -/
def synthAnyCharNotNL (g : Rand) : Outcome :=
  match intn ((Alphabet.length : Int) - 1) g with
  | .error e => .error e
  | .ok (i, g1) =>
    match Alphabet[i.toNat]? with
    | none => .error .panic
    | some c => .ok (some [c], g1)

/-- Source function `synthAnyChar`. -/
def synthAnyChar (g : Rand) : Outcome :=
  match intn Alphabet.length g with
  | .error e => .error e
  | .ok (i, g1) =>
    match Alphabet[i.toNat]? with
    | none => .error .panic
    | some c => .ok (some [c], g1)

/-- Source function `synthBeginText`. -/
def synthBeginText (prev : Int) (g : Rand) : Outcome :=
  if prev = 0 then .ok (some [], g) else .ok (none, g)

/-- The recursive call `synth(prev, re.Sub[0], caps)`; the index panics without children. -/
def synthSub0 (syn : Int → Regexp → List Slice → Rand → Outcome)
    (prev : Int) (re : Regexp) (caps : List Slice) (g : Rand) : Outcome :=
  match re.sub with
  | [] => .error .panic
  | c :: _ => syn prev c caps g

/-- Source function `synthCapture`; `syn` is the recursive `synth`. -/
def synthCapture (syn : Int → Regexp → List Slice → Rand → Outcome)
    (prev : Int) (re : Regexp) (caps : List Slice) (g : Rand) : Outcome :=
  if re.cap ≤ (caps.length : Int) then
    if re.cap - 1 < 0 then .error .panic
    else
      match caps[(re.cap - 1).toNat]? with
      | none => .error .panic
      | some (some v) => .ok (some v, g)
      | some none => synthSub0 syn prev re caps g
  else synthSub0 syn prev re caps g

/-- The loop of `synthStar`, `synthPlus` and `synthRepeat`, `n` iterations left:
`if len(res) > 0 { prev = res[len(res)-1] }; r, _ := synth(prev, re.Sub[0], caps);
if r == nil { return nil, false }; res = append(res, r...)`, and `return res, false` after
the last one. -/
def repLoop (syn : Int → Regexp → List Slice → Rand → Outcome) (re : Regexp)
    (caps : List Slice) : Nat → Int → Slice → Rand → Outcome
  | 0, _, res, g => .ok (res, g)
  | n + 1, prev, res, g =>
    match synthSub0 syn (updPrev prev res) re caps g with
    | .error e => .error e
    | .ok (none, g1) => .ok (none, g1)
    | .ok (some r, g1) => repLoop syn re caps n (updPrev prev res) (goAppend res (some r)) g1

/-- Source function `synthStar`: `var res []rune` starts the loop with `nil`. -/
def synthStar (syn : Int → Regexp → List Slice → Rand → Outcome)
    (prev : Int) (re : Regexp) (caps : List Slice) (g : Rand) : Outcome :=
  match intn 32 g with
  | .error e => .error e
  | .ok (n, g1) =>
    if n = 0 then .ok (some [], g1)
    else repLoop syn re caps n.toNat prev none g1

/-- Source function `synthPlus`: `res := []rune{}` starts the loop with the empty non-nil
slice.  The dispatch of `synth` never calls it. -/
def synthPlus (syn : Int → Regexp → List Slice → Rand → Outcome)
    (prev : Int) (re : Regexp) (caps : List Slice) (g : Rand) : Outcome :=
  match intn 31 g with
  | .error e => .error e
  | .ok (n, g1) => repLoop syn re caps (n + 1).toNat prev (some []) g1

/-- Source function `synthQuest`. -/
def synthQuest (syn : Int → Regexp → List Slice → Rand → Outcome)
    (prev : Int) (re : Regexp) (caps : List Slice) (g : Rand) : Outcome :=
  match intn 2 g with
  | .error e => .error e
  | .ok (n, g1) =>
    if n = 1 then
      match synthSub0 syn prev re caps g1 with
      | .error e => .error e
      | .ok (none, g2) => .ok (none, g2)
      | .ok (some r, g2) => .ok (goAppend (some []) (some r), g2)
    else .ok (some [], g1)

/-- Source function `synthRepeat`.  `max - min` is the subtraction of the Go `int`, which
wraps for a negative `min` and a large `max` (`subGoInt`); `rand.Intn(max-min) + min` lies
between `min` and `max` and cannot overflow. -/
def synthRepeat (syn : Int → Regexp → List Slice → Rand → Outcome)
    (prev : Int) (re : Regexp) (caps : List Slice) (g : Rand) : Outcome :=
  let min := re.min
  let max := if re.max = -1 then 32 else re.max
  let max := if max < min then min else max
  match intn (subGoInt max min) g with
  | .error e => .error e
  | .ok (n, g1) => repLoop syn re caps (n + min).toNat prev (some []) g1

/-- The loop of `synthConcat` over the children still to generate. -/
def concatLoop (syn : Int → Regexp → List Slice → Rand → Outcome) (caps : List Slice) :
    List Regexp → Int → Slice → Rand → Outcome
  | [], _, res, g => .ok (res, g)
  | s :: rest, prev, res, g =>
    match syn (updPrev prev res) s caps g with
    | .error e => .error e
    | .ok (none, g1) => .ok (none, g1)
    | .ok (some r, g1) => concatLoop syn caps rest (updPrev prev res) (goAppend res (some r)) g1

/-- Source function `synthConcat`: `var res []rune` starts the loop with `nil`. -/
def synthConcat (syn : Int → Regexp → List Slice → Rand → Outcome)
    (prev : Int) (re : Regexp) (caps : List Slice) (g : Rand) : Outcome :=
  concatLoop syn caps re.sub prev none g

/-- The loop of `synthAlternate`, `k` iterations left, `i` the child to try next. -/
def altLoop (syn : Int → Regexp → List Slice → Rand → Outcome) (prev : Int) (re : Regexp)
    (caps : List Slice) : Nat → Nat → Rand → Outcome
  | 0, _, g => .ok (none, g)
  | k + 1, i, g =>
    match re.sub[i]? with
    | none => .error .panic
    | some s =>
      match syn prev s caps g with
      | .error e => .error e
      | .ok (some r, g1) => .ok (some r, g1)
      | .ok (none, g1) => altLoop syn prev re caps k ((i + 1) % re.sub.length) g1

/-- Source function `synthAlternate`. -/
def synthAlternate (syn : Int → Regexp → List Slice → Rand → Outcome)
    (prev : Int) (re : Regexp) (caps : List Slice) (g : Rand) : Outcome :=
  match intn re.sub.length g with
  | .error e => .error e
  | .ok (i, g1) => altLoop syn prev re caps re.sub.length i.toNat g1

/-- Source function `synth`: the dispatch on `re.Op`.  `OpPlus` is sent to `synthStar`, as in
the source; a kind without a case returns `[]rune{}`.  The first argument is the fuel. -/
def synth : Nat → Int → Regexp → List Slice → Rand → Outcome
  | 0, _, _, _, _ => .error .noFuel
  | fuel + 1, prev, re, caps, g =>
    match re.op with
    | .noMatch => synthNoMatch g
    | .emptyMatch => synthEmptyMatch g
    | .literal => synthLiteral re g
    | .charClass => synthCharClass re g
    | .anyCharNotNL => synthAnyCharNotNL g
    | .anyChar => synthAnyChar g
    | .beginLine => synthBeginText prev g
    | .beginText => synthBeginText prev g
    | .capture => synthCapture (synth fuel) prev re caps g
    | .star => synthStar (synth fuel) prev re caps g
    | .plus => synthStar (synth fuel) prev re caps g
    | .quest => synthQuest (synth fuel) prev re caps g
    | .repeatN => synthRepeat (synth fuel) prev re caps g
    | .concat => synthConcat (synth fuel) prev re caps g
    | .alternate => synthAlternate (synth fuel) prev re caps g
    | _ => .ok (some [], g)

/-- Source function `Synth`: the entry point, `synth(0, se.re, caps)` with the result slice
returned. -/
def Synth (re : Regexp) (caps : List Slice) (g : Rand) : Except Fault Slice :=
  value (synth (re.depth + 1) 0 re caps g)

/-- Two generators that agree on every tree of the list `l`. -/
def AgreeOn (syn syn2 : Int → Regexp → List Slice → Rand → Outcome) (caps : List Slice)
    (l : List Regexp) : Prop :=
  ∀ c, c ∈ l → ∀ p g, syn p c caps g = syn2 p c caps g

/-- A generator that never runs out of fuel on the trees of the list `l`. -/
def FuelOn (syn : Int → Regexp → List Slice → Rand → Outcome) (caps : List Slice)
    (l : List Regexp) : Prop :=
  ∀ c, c ∈ l → ∀ p g, syn p c caps g ≠ .error .noFuel

/-! ## Regular-expression semantics of the anchor-free fragment -/

/-- The inclusive pairs `(lo, hi)` of a flat range list `lo0, hi0, lo1, hi1, ...`. -/
def classPairs : List Int → List (Int × Int)
  | lo :: hi :: rest => (lo, hi) :: classPairs rest
  | _ => []

/-- The language of a tree under the standard semantics of regular expressions, for the kinds
without position assertions: `Matches re w` says the word `w` belongs to the language of
`re`. -/
inductive Matches : Regexp → List Int → Prop
  | emptyMatch {re : Regexp} : re.op = .emptyMatch → Matches re []
  | literal {re : Regexp} {s : List Int} : re.op = .literal → re.rune = some s → Matches re s
  | charClass {re : Regexp} {lo hi c : Int} : re.op = .charClass →
      (lo, hi) ∈ classPairs re.rune.toList → lo ≤ c → c ≤ hi → Matches re [c]
  | capture {re c : Regexp} {t : List Regexp} {w : List Int} : re.op = .capture →
      re.sub = c :: t → Matches c w → Matches re w
  | starNil {re : Regexp} : re.op = .star → Matches re []
  | starCons {re c : Regexp} {t : List Regexp} {u v : List Int} : re.op = .star →
      re.sub = c :: t → Matches c u → Matches re v → Matches re (u ++ v)
  | questNil {re : Regexp} : re.op = .quest → Matches re []
  | questOne {re c : Regexp} {t : List Regexp} {w : List Int} : re.op = .quest →
      re.sub = c :: t → Matches c w → Matches re w
  | concatNil {re : Regexp} : re.op = .concat → re.sub = [] → Matches re []
  | concatCons {re c : Regexp} {t : List Regexp} {r : Slice} {mn mx cp : Int}
      {u v : List Int} : re.op = .concat → re.sub = c :: t → Matches c u →
      Matches (mk .concat t r mn mx cp) v → Matches re (u ++ v)
  | alternate {re c : Regexp} {w : List Int} : re.op = .alternate → c ∈ re.sub →
      Matches c w → Matches re w

/-- The anchor-free fragment: trees built only from EmptyMatch, non-empty Literal, CharClass
with a non-empty list of pairs `lo ≤ hi`, Star, Quest, Concat, Alternate and Capture. -/
inductive AnchorFree : Regexp → Prop
  | emptyMatch {re : Regexp} : re.op = .emptyMatch → AnchorFree re
  | literal {re : Regexp} {s : List Int} : re.op = .literal → re.rune = some s → s ≠ [] →
      AnchorFree re
  | charClass {re : Regexp} {rs : List Int} : re.op = .charClass → re.rune = some rs →
      classPairs rs ≠ [] → (∀ p, p ∈ classPairs rs → p.1 ≤ p.2) → AnchorFree re
  | capture {re c : Regexp} : re.op = .capture → re.sub = [c] → AnchorFree c → AnchorFree re
  | star {re c : Regexp} : re.op = .star → re.sub = [c] → AnchorFree c → AnchorFree re
  | quest {re c : Regexp} : re.op = .quest → re.sub = [c] → AnchorFree c → AnchorFree re
  | concat {re : Regexp} : re.op = .concat → (∀ c, c ∈ re.sub → AnchorFree c) →
      AnchorFree re
  | alternate {re : Regexp} : re.op = .alternate → (∀ c, c ∈ re.sub → AnchorFree c) →
      AnchorFree re

/-- A generator all of whose non-nil results on the trees of `l` are words of the tree. -/
def SoundOn (syn : Int → Regexp → List Slice → Rand → Outcome) (caps : List Slice)
    (l : List Regexp) : Prop :=
  ∀ c, c ∈ l → ∀ p g w g1, syn p c caps g = .ok (some w, g1) → Matches c w

/-- Sample tree `(?:[b-d])*((?:|c?))` used to exercise the soundness theorem. -/
def sampleTree : Regexp :=
  cat [star (cls [98, 100]), capt 1 (alt [leaf .emptyMatch, quest (lit [99])])]

/-- A child that is either the node NoMatch or a non-empty Literal. -/
def NoMatchOrLit (c : Regexp) : Prop :=
  c = leaf .noMatch ∨ ∃ s : List Int, s ≠ [] ∧ c = lit s

/-- State of the loop of `synthConcat` once the children of `l` have all been generated
without failure: the current `prev`, `res` and random source; `none` when one of them
failed or panicked. -/
def concatState (syn : Int → Regexp → List Slice → Rand → Outcome) (caps : List Slice) :
    List Regexp → Int → Slice → Rand → Option (Int × Slice × Rand)
  | [], prev, res, g => some (prev, res, g)
  | s :: rest, prev, res, g =>
    match syn (updPrev prev res) s caps g with
    | .ok (some r, g1) =>
      concatState syn caps rest (updPrev prev res) (goAppend res (some r)) g1
    | _ => none

/-- A child whose generation fails (returns `nil`) for every previous character and every
random source. -/
def AlwaysFails (syn : Int → Regexp → List Slice → Rand → Outcome) (caps : List Slice)
    (c : Regexp) : Prop :=
  ∀ (p : Int) (g : Rand), ∃ g1, syn p c caps g = .ok (none, g1)

/-- The maximum of a Repeat node after `if max == -1 { max = 32 }`. -/
def resolvedMax (re : Regexp) : Int := if re.max = -1 then 32 else re.max

/-- The bound that `synthRepeat` passes to `rand.Intn`: `max-min` after both adjustments of
`max`, as the Go `int` computes it.  A count is drawn exactly when it is positive. -/
def repeatWidth (re : Regexp) : Int :=
  subGoInt (if resolvedMax re < re.min then re.min else resolvedMax re) re.min

/-! ## Counting child generations -/

/-- The loop `repLoop` with a ghost counter: its outcome, and the number of evaluations of
`synth(prev, re.Sub[0], caps)` it performed. -/
def repLoopC (syn : Int → Regexp → List Slice → Rand → Outcome) (re : Regexp)
    (caps : List Slice) : Nat → Int → Slice → Rand → Outcome × Nat
  | 0, _, res, g => (.ok (res, g), 0)
  | n + 1, prev, res, g =>
    match re.sub with
    | [] => (.error .panic, 0)
    | c :: _ =>
      match syn (updPrev prev res) c caps g with
      | .error e => (.error e, 1)
      | .ok (none, g1) => (.ok (none, g1), 1)
      | .ok (some r, g1) =>
        ((repLoopC syn re caps n (updPrev prev res) (goAppend res (some r)) g1).1,
          (repLoopC syn re caps n (updPrev prev res) (goAppend res (some r)) g1).2 + 1)

/-- Source function `synthStar` with the ghost counter of child generations. -/
def synthStarC (syn : Int → Regexp → List Slice → Rand → Outcome)
    (prev : Int) (re : Regexp) (caps : List Slice) (g : Rand) : Outcome × Nat :=
  match intn 32 g with
  | .error e => (.error e, 0)
  | .ok (n, g1) =>
    if n = 0 then (.ok (some [], g1), 0)
    else repLoopC syn re caps n.toNat prev none g1

/-- Source function `synthQuest` with the ghost counter of child generations. -/
def synthQuestC (syn : Int → Regexp → List Slice → Rand → Outcome)
    (prev : Int) (re : Regexp) (caps : List Slice) (g : Rand) : Outcome × Nat :=
  match intn 2 g with
  | .error e => (.error e, 0)
  | .ok (n, g1) =>
    if n = 1 then
      match re.sub with
      | [] => (.error .panic, 0)
      | c :: _ =>
        match syn prev c caps g1 with
        | .error e => (.error e, 1)
        | .ok (none, g2) => (.ok (none, g2), 1)
        | .ok (some r, g2) => (.ok (goAppend (some []) (some r), g2), 1)
    else (.ok (some [], g1), 0)

/-- Source function `synthRepeat` with the ghost counter of child generations. -/
def synthRepeatC (syn : Int → Regexp → List Slice → Rand → Outcome)
    (prev : Int) (re : Regexp) (caps : List Slice) (g : Rand) : Outcome × Nat :=
  let min := re.min
  let max := if re.max = -1 then 32 else re.max
  let max := if max < min then min else max
  match intn (subGoInt max min) g with
  | .error e => (.error e, 0)
  | .ok (n, g1) => repLoopC syn re caps (n + min).toNat prev (some []) g1

/-- The dispatch of `synth` on a repetition node with the ghost counter: the outcome and the
number of times the node generated its child (`OpPlus` goes to `synthStar`, as in `synth`).
No other kind is counted. -/
def synthC : Nat → Int → Regexp → List Slice → Rand → Outcome × Nat
  | 0, _, _, _, _ => (.error .noFuel, 0)
  | fuel + 1, prev, re, caps, g =>
    match re.op with
    | .star => synthStarC (synth fuel) prev re caps g
    | .plus => synthStarC (synth fuel) prev re caps g
    | .quest => synthQuestC (synth fuel) prev re caps g
    | .repeatN => synthRepeatC (synth fuel) prev re caps g
    | _ => (synth (fuel + 1) prev re caps g, 0)

/-- Number of times a repetition node generates its child in one evaluation of the node. -/
def childCalls (fuel : Nat) (prev : Int) (re : Regexp) (caps : List Slice) (g : Rand) : Nat :=
  (synthC fuel prev re caps g).2

/-! ## The text and byte entry points -/

/-- Go's built-in conversions between a string (its bytes) and a rune slice, which are not
code of the repository: `dec s` is the content of `[]rune(s)`, `enc r` the bytes of
`string(r)`.  Both send the empty input to the empty output. -/
structure Utf8 where
  dec : List Nat → List Int
  enc : List Int → List Nat
  dec_nil : dec [] = []
  enc_nil : enc [] = []

/-- The conversions on ASCII text, where every byte is its own code point. -/
def asciiUtf8 : Utf8 :=
  ⟨fun b => b.map Int.ofNat, fun r => r.map Int.toNat, rfl, rfl⟩

/-- Source function `SynthString`.  An argument is a `*string`: `none` for `nil`, else the
bytes of the string.  A `nil` argument is skipped and leaves the `nil` entry of `make`. -/
def SynthString (u : Utf8) (re : Regexp) (caps : List (Option (List Nat))) (g : Rand) :
    Except Fault (List Nat) :=
  let runeCaps : List Slice := caps.map (fun c =>
    match c with
    | none => none
    | some str => some (u.dec str))
  match Synth re runeCaps g with
  | .error e => .error e
  | .ok r => .ok (u.enc r.toList)

/-- Source function `SynthBytes`.  An argument is a `[]byte`: `none` for `nil`.  Every entry
is set to `[]rune(string(c))`, and that conversion returns a non-nil slice also for the
empty string, which is what `string(c)` is for a `nil` argument. -/
def SynthBytes (u : Utf8) (re : Regexp) (caps : List (Option (List Nat))) (g : Rand) :
    Except Fault (List Nat) :=
  let runeCaps : List Slice := caps.map (fun c =>
    match c with
    | none => some (u.dec [])
    | some b => some (u.dec b))
  match Synth re runeCaps g with
  | .error e => .error e
  | .ok r => .ok (u.enc r.toList)

/-! ## Well-formed trees -/

/-- Well-formedness of a tree, at every node: a CharClass has at least one range pair, of
characters (between 0 and `MaxRune`); an Alternate has at least one child; a Capture has
index at least 1 and one child; Star, Plus, Quest and Repeat have one child; a Repeat has
`min ≥ 0` and a resolved `max` strictly above `min`. -/
inductive WellFormed : Regexp → Prop
  | node {re : Regexp} :
      (∀ c, c ∈ re.sub → WellFormed c) →
      (re.op = .charClass → classPairs re.rune.toList ≠ [] ∧
        ∀ p, p ∈ classPairs re.rune.toList →
          0 ≤ p.1 ∧ p.1 ≤ MaxRune ∧ 0 ≤ p.2 ∧ p.2 ≤ MaxRune) →
      (re.op = .alternate → re.sub ≠ []) →
      (re.op = .capture → 1 ≤ re.cap ∧ ∃ c, re.sub = [c]) →
      (re.op = .star ∨ re.op = .plus ∨ re.op = .quest ∨ re.op = .repeatN →
        ∃ c, re.sub = [c]) →
      (re.op = .repeatN → 0 ≤ re.min ∧ re.min < resolvedMax re) →
      WellFormed re

/-- A generator that returns normally (no panic, fuel left) on the trees of the list `l`. -/
def OkOn (syn : Int → Regexp → List Slice → Rand → Outcome) (caps : List Slice)
    (l : List Regexp) : Prop :=
  ∀ c, c ∈ l → ∀ (p : Int) (g : Rand), ∃ r g1, syn p c caps g = .ok (r, g1)

/-- Sample well-formed tree `([a-c]{1,3})`. -/
def sampleWF : Regexp := capt 1 (rep (cls [97, 99]) 1 3)

/-! ## Fuel: `depth + 1` is enough, and more fuel changes nothing -/

theorem depth_lt_depthList {c : Regexp} {l : List Regexp} (h : c ∈ l) :
    c.depth < depthList l := by
  induction l with
  | nil => cases h
  | cons a t ih =>
    simp only [depthList]
    rcases List.mem_cons.1 h with rfl | h1
    · exact Nat.lt_of_lt_of_le (Nat.lt_succ_self _) (Nat.le_max_left _ _)
    · exact Nat.lt_of_lt_of_le (ih h1) (Nat.le_max_right _ _)

theorem depth_eq_depthList (re : Regexp) : re.depth = depthList re.sub := by
  cases re
  simp [depth, sub]

theorem depth_lt_of_mem_sub {c re : Regexp} (h : c ∈ re.sub) : c.depth < re.depth := by
  rw [depth_eq_depthList re]
  exact depth_lt_depthList h

theorem synthSub0_congr {syn syn2 : Int → Regexp → List Slice → Rand → Outcome}
    {caps : List Slice} {re : Regexp} (h : AgreeOn syn syn2 caps re.sub) (prev : Int) (g : Rand) :
    synthSub0 syn prev re caps g = synthSub0 syn2 prev re caps g := by
  unfold synthSub0
  cases hs : re.sub with
  | nil => rfl
  | cons c t => exact h c (by rw [hs]; exact List.mem_cons_self _ _) prev g

theorem repLoop_congr {syn syn2 : Int → Regexp → List Slice → Rand → Outcome}
    {caps : List Slice} {re : Regexp} (h : AgreeOn syn syn2 caps re.sub) (n : Nat) :
    ∀ (prev : Int) (res : Slice) (g : Rand),
      repLoop syn re caps n prev res g = repLoop syn2 re caps n prev res g := by
  induction n with
  | zero => intro prev res g; rfl
  | succ n ih =>
    intro prev res g
    simp only [repLoop]
    rw [synthSub0_congr h]
    cases synthSub0 syn2 (updPrev prev res) re caps g with
    | error e => rfl
    | ok v =>
      obtain ⟨r, g1⟩ := v
      cases r with
      | none => rfl
      | some r => exact ih _ _ _

theorem concatLoop_congr {syn syn2 : Int → Regexp → List Slice → Rand → Outcome}
    {caps : List Slice} (l : List Regexp) (h : AgreeOn syn syn2 caps l) :
    ∀ (prev : Int) (res : Slice) (g : Rand),
      concatLoop syn caps l prev res g = concatLoop syn2 caps l prev res g := by
  induction l with
  | nil => intro prev res g; rfl
  | cons s rest ih =>
    intro prev res g
    simp only [concatLoop]
    rw [h s (List.mem_cons_self _ _)]
    cases syn2 (updPrev prev res) s caps g with
    | error e => rfl
    | ok v =>
      obtain ⟨r, g1⟩ := v
      cases r with
      | none => rfl
      | some r => exact ih (fun c hc => h c (List.mem_cons_of_mem _ hc)) _ _ _

theorem altLoop_congr {syn syn2 : Int → Regexp → List Slice → Rand → Outcome}
    {caps : List Slice} {re : Regexp} (h : AgreeOn syn syn2 caps re.sub) (prev : Int) (k : Nat) :
    ∀ (i : Nat) (g : Rand),
      altLoop syn prev re caps k i g = altLoop syn2 prev re caps k i g := by
  induction k with
  | zero => intro i g; rfl
  | succ k ih =>
    intro i g
    simp only [altLoop]
    cases hs : re.sub[i]? with
    | none => rfl
    | some s =>
      simp only []
      rw [h s (List.getElem?_mem hs)]
      cases syn2 prev s caps g with
      | error e => rfl
      | ok v =>
        obtain ⟨r, g1⟩ := v
        cases r with
        | none => exact ih _ _
        | some r => rfl

/-- One more unit of fuel than the depth of the tree already gives the final outcome. -/
theorem synth_fuel_succ (caps : List Slice) :
    ∀ (fuel : Nat) (re : Regexp), re.depth < fuel →
      ∀ (prev : Int) (g : Rand), synth fuel prev re caps g = synth (fuel + 1) prev re caps g := by
  intro fuel
  induction fuel with
  | zero => intro re h; exact absurd h (Nat.not_lt_zero _)
  | succ f ih =>
    intro re h prev g
    have hag : AgreeOn (synth f) (synth (f + 1)) caps re.sub := fun c hc p g1 =>
      ih c (by have := depth_lt_of_mem_sub hc; omega) p g1
    rw [synth, synth]
    cases re.op with
    | capture =>
      simp only [synthCapture]
      rw [synthSub0_congr hag]
    | star => simp only [synthStar]; simp only [repLoop_congr hag]
    | plus => simp only [synthStar]; simp only [repLoop_congr hag]
    | quest => simp only [synthQuest]; simp only [synthSub0_congr hag]
    | repeatN => simp only [synthRepeat]; simp only [repLoop_congr hag]
    | concat => simp only [synthConcat]; rw [concatLoop_congr _ hag]
    | alternate => simp only [synthAlternate]; simp only [altLoop_congr hag]
    | _ => rfl

/-- Any fuel above the depth of the tree gives the outcome of `depth + 1`. -/
theorem synth_fuel_stable (caps : List Slice) (re : Regexp) (prev : Int) (g : Rand) :
    ∀ (fuel : Nat), re.depth < fuel →
      synth fuel prev re caps g = synth (re.depth + 1) prev re caps g := by
  intro fuel
  induction fuel with
  | zero => intro h; exact absurd h (Nat.not_lt_zero _)
  | succ f ih =>
    intro h
    rcases Nat.lt_or_ge re.depth f with h1 | h1
    · rw [← synth_fuel_succ caps f re h1 prev g]
      exact ih h1
    · have : f = re.depth := by omega
      rw [this]

theorem intn_ne_noFuel (n : Int) (g : Rand) : intn n g ≠ .error .noFuel := by
  unfold intn
  split <;> simp

theorem expandRange_ne_noFuel (lo hi : Int) : expandRange lo hi ≠ .error .noFuel := by
  unfold expandRange
  dsimp only
  split_ifs <;> simp

theorem expandRanges_ne_noFuel : ∀ (l : List Int), expandRanges l ≠ .error .noFuel
  | [] => by simp [expandRanges]
  | [_] => by simp [expandRanges]
  | lo :: hi :: rest => by
    have h1 := expandRange_ne_noFuel lo hi
    have h2 := expandRanges_ne_noFuel rest
    simp only [expandRanges]
    cases h : expandRange lo hi with
    | error e => rw [h] at h1; simpa using h1
    | ok l =>
      cases h3 : expandRanges rest with
      | error e => rw [h3] at h2; simpa using h2
      | ok ls => simp

theorem synthSub0_ne_noFuel {syn : Int → Regexp → List Slice → Rand → Outcome}
    {caps : List Slice} {re : Regexp} (h : FuelOn syn caps re.sub) (prev : Int) (g : Rand) :
    synthSub0 syn prev re caps g ≠ .error .noFuel := by
  unfold synthSub0
  cases hs : re.sub with
  | nil => simp
  | cons c t => exact h c (by rw [hs]; exact List.mem_cons_self _ _) prev g

theorem repLoop_ne_noFuel {syn : Int → Regexp → List Slice → Rand → Outcome}
    {caps : List Slice} {re : Regexp} (h : FuelOn syn caps re.sub) (n : Nat) :
    ∀ (prev : Int) (res : Slice) (g : Rand),
      repLoop syn re caps n prev res g ≠ .error .noFuel := by
  induction n with
  | zero => intro prev res g; simp [repLoop]
  | succ n ih =>
    intro prev res g
    simp only [repLoop]
    have h1 := synthSub0_ne_noFuel h (updPrev prev res) g
    cases h2 : synthSub0 syn (updPrev prev res) re caps g with
    | error e => rw [h2] at h1; simpa using h1
    | ok v =>
      obtain ⟨r, g1⟩ := v
      cases r with
      | none => simp
      | some r => exact ih _ _ _

theorem concatLoop_ne_noFuel {syn : Int → Regexp → List Slice → Rand → Outcome}
    {caps : List Slice} (l : List Regexp) (h : FuelOn syn caps l) :
    ∀ (prev : Int) (res : Slice) (g : Rand),
      concatLoop syn caps l prev res g ≠ .error .noFuel := by
  induction l with
  | nil => intro prev res g; simp [concatLoop]
  | cons s rest ih =>
    intro prev res g
    simp only [concatLoop]
    have h1 := h s (List.mem_cons_self _ _) (updPrev prev res) g
    cases h2 : syn (updPrev prev res) s caps g with
    | error e => rw [h2] at h1; simpa using h1
    | ok v =>
      obtain ⟨r, g1⟩ := v
      cases r with
      | none => simp
      | some r => exact ih (fun c hc => h c (List.mem_cons_of_mem _ hc)) _ _ _

theorem altLoop_ne_noFuel {syn : Int → Regexp → List Slice → Rand → Outcome}
    {caps : List Slice} {re : Regexp} (h : FuelOn syn caps re.sub) (prev : Int) (k : Nat) :
    ∀ (i : Nat) (g : Rand), altLoop syn prev re caps k i g ≠ .error .noFuel := by
  induction k with
  | zero => intro i g; simp [altLoop]
  | succ k ih =>
    intro i g
    simp only [altLoop]
    cases hs : re.sub[i]? with
    | none => simp
    | some s =>
      simp only []
      have h1 := h s (List.getElem?_mem hs) prev g
      cases h2 : syn prev s caps g with
      | error e => rw [h2] at h1; simpa using h1
      | ok v =>
        obtain ⟨r, g1⟩ := v
        cases r with
        | none => exact ih _ _
        | some r => simp

/-- With more fuel than the depth of the tree, `synth` never stops for lack of fuel: the
recursion of the source terminates. -/
theorem synth_fuel_enough (caps : List Slice) :
    ∀ (fuel : Nat) (re : Regexp), re.depth < fuel →
      ∀ (prev : Int) (g : Rand), synth fuel prev re caps g ≠ .error .noFuel := by
  intro fuel
  induction fuel with
  | zero => intro re h; exact absurd h (Nat.not_lt_zero _)
  | succ f ih =>
    intro re h prev g
    have hf : FuelOn (synth f) caps re.sub := fun c hc p g1 =>
      ih c (by have := depth_lt_of_mem_sub hc; omega) p g1
    rw [synth]
    cases re.op with
    | noMatch => simp [synthNoMatch]
    | emptyMatch => simp [synthEmptyMatch]
    | literal => simp [synthLiteral]
    | charClass =>
      simp only [synthCharClass]
      have h1 := expandRanges_ne_noFuel re.rune.toList
      cases h2 : expandRanges re.rune.toList with
      | error e => rw [h2] at h1; simpa using h1
      | ok runes =>
        simp only []
        have h3 := intn_ne_noFuel runes.length g
        cases h4 : intn runes.length g with
        | error e => rw [h4] at h3; simpa using h3
        | ok v =>
          obtain ⟨i, g1⟩ := v
          simp only []
          cases runes[i.toNat]? <;> simp
    | anyCharNotNL =>
      simp only [synthAnyCharNotNL]
      have h3 := intn_ne_noFuel ((Alphabet.length : Int) - 1) g
      cases h4 : intn ((Alphabet.length : Int) - 1) g with
      | error e => rw [h4] at h3; simpa using h3
      | ok v =>
        obtain ⟨i, g1⟩ := v
        simp only []
        cases Alphabet[i.toNat]? <;> simp
    | anyChar =>
      simp only [synthAnyChar]
      have h3 := intn_ne_noFuel (Alphabet.length : Int) g
      cases h4 : intn (Alphabet.length : Int) g with
      | error e => rw [h4] at h3; simpa using h3
      | ok v =>
        obtain ⟨i, g1⟩ := v
        simp only []
        cases Alphabet[i.toNat]? <;> simp
    | beginLine => simp only [synthBeginText]; split <;> simp
    | beginText => simp only [synthBeginText]; split <;> simp
    | capture =>
      simp only [synthCapture]
      have h1 := synthSub0_ne_noFuel hf prev g
      split
      · split
        · simp
        · split
          · simp
          · simp
          · exact h1
      · exact h1
    | star =>
      simp only [synthStar]
      have h3 := intn_ne_noFuel 32 g
      cases h4 : intn 32 g with
      | error e => rw [h4] at h3; simpa using h3
      | ok v =>
        obtain ⟨n, g1⟩ := v
        simp only []
        split
        · simp
        · exact repLoop_ne_noFuel hf _ _ _ _
    | plus =>
      simp only [synthStar]
      have h3 := intn_ne_noFuel 32 g
      cases h4 : intn 32 g with
      | error e => rw [h4] at h3; simpa using h3
      | ok v =>
        obtain ⟨n, g1⟩ := v
        simp only []
        split
        · simp
        · exact repLoop_ne_noFuel hf _ _ _ _
    | quest =>
      simp only [synthQuest]
      have h3 := intn_ne_noFuel 2 g
      cases h4 : intn 2 g with
      | error e => rw [h4] at h3; simpa using h3
      | ok v =>
        obtain ⟨n, g1⟩ := v
        simp only []
        split
        · have h1 := synthSub0_ne_noFuel hf prev g1
          cases h2 : synthSub0 (synth f) prev re caps g1 with
          | error e => rw [h2] at h1; simpa using h1
          | ok w =>
            obtain ⟨r, g2⟩ := w
            cases r <;> simp
        · simp
    | repeatN =>
      simp only [synthRepeat]
      generalize subGoInt (if (if re.max = -1 then 32 else re.max) < re.min then re.min
        else if re.max = -1 then 32 else re.max) re.min = m
      have h3 := intn_ne_noFuel m g
      cases h4 : intn m g with
      | error e => rw [h4] at h3; simpa using h3
      | ok v =>
        obtain ⟨n, g1⟩ := v
        exact repLoop_ne_noFuel hf _ _ _ _
    | concat => exact concatLoop_ne_noFuel _ hf _ _ _
    | alternate =>
      simp only [synthAlternate]
      have h3 := intn_ne_noFuel re.sub.length g
      cases h4 : intn re.sub.length g with
      | error e => rw [h4] at h3; simpa using h3
      | ok v =>
        obtain ⟨n, g1⟩ := v
        exact altLoop_ne_noFuel hf _ _ _ _
    | _ => simp

/-- The entry point never stops for lack of fuel. -/
theorem Synth_ne_noFuel (re : Regexp) (caps : List Slice) (g : Rand) :
    Synth re caps g ≠ .error .noFuel := by
  have h := synth_fuel_enough caps (re.depth + 1) re (Nat.lt_succ_self _) 0 g
  unfold Synth value
  cases h1 : synth (re.depth + 1) 0 re caps g with
  | error e =>
    rw [h1] at h
    intro h2
    injection h2 with h2
    exact h (by rw [h2])
  | ok v =>
    obtain ⟨r, g1⟩ := v
    intro h2
    cases h2

/-! ## Slices -/

theorem goAppend_toList (a b : Slice) : (goAppend a b).toList = a.toList ++ b.toList := by
  cases a with
  | none =>
    cases b with
    | none => rfl
    | some l => cases l <;> rfl
  | some x =>
    cases b with
    | none => simp [goAppend, Slice.toList]
    | some l => rfl

/-! ## Soundness on the anchor-free fragment -/

theorem expandRange_mem {lo hi c : Int} {l : List Int} (h : expandRange lo hi = .ok l)
    (hle : lo ≤ hi) (hc : c ∈ l) : lo ≤ c ∧ c ≤ hi := by
  unfold expandRange at h
  dsimp only at h
  split_ifs at h with h1 h2 h3 h4 h5 h6
  all_goals
    injection h with h
    subst h
    obtain ⟨k, hk, rfl⟩ := List.mem_map.1 hc
    have hk2 := List.mem_range.1 hk
    simp only [MaxRune, Int.ofNat_eq_coe] at *
    omega

theorem expandRanges_mem {c : Int} : ∀ (rs : List Int) (l : List Int),
    expandRanges rs = .ok l → (∀ p, p ∈ classPairs rs → p.1 ≤ p.2) → c ∈ l →
    ∃ p, p ∈ classPairs rs ∧ p.1 ≤ c ∧ c ≤ p.2
  | [], l, h, _, hc => by
    simp [expandRanges] at h
    subst h
    cases hc
  | [_], l, h, _, hc => by
    simp [expandRanges] at h
    subst h
    cases hc
  | lo :: hi :: rest, l, h, hp, hc => by
    simp only [expandRanges] at h
    cases h1 : expandRange lo hi with
    | error e => rw [h1] at h; cases h
    | ok l1 =>
      rw [h1] at h
      cases h2 : expandRanges rest with
      | error e => rw [h2] at h; cases h
      | ok l2 =>
        rw [h2] at h
        injection h with h
        subst h
        rcases List.mem_append.1 hc with hc1 | hc2
        · have hle : lo ≤ hi := hp (lo, hi) (by simp [classPairs])
          exact ⟨(lo, hi), by simp [classPairs], expandRange_mem h1 hle hc1⟩
        · obtain ⟨p, hp1, hp2⟩ := expandRanges_mem rest l2 h2
            (fun p hp0 => hp p (by simp [classPairs, hp0])) hc2
          exact ⟨p, by simp [classPairs, hp1], hp2⟩

theorem repLoop_sound {syn : Int → Regexp → List Slice → Rand → Outcome} {caps : List Slice}
    {re c : Regexp} {t : List Regexp} (hop : re.op = .star) (hs : re.sub = c :: t)
    (hsyn : SoundOn syn caps [c]) (n : Nat) :
    ∀ (prev : Int) (res : Slice) (g : Rand) (out : List Int) (g1 : Rand),
      repLoop syn re caps n prev res g = .ok (some out, g1) →
      ∃ v, out = res.toList ++ v ∧ Matches re v := by
  induction n with
  | zero =>
    intro prev res g out g1 h
    simp only [repLoop] at h
    injection h with h
    injection h with h h2
    subst h
    exact ⟨[], by simp [Slice.toList], Matches.starNil hop⟩
  | succ n ih =>
    intro prev res g out g1 h
    simp only [repLoop, synthSub0, hs] at h
    cases h1 : syn (updPrev prev res) c caps g with
    | error e => rw [h1] at h; cases h
    | ok v =>
      obtain ⟨r, g2⟩ := v
      rw [h1] at h
      cases r with
      | none => cases h
      | some r =>
        obtain ⟨v, hv1, hv2⟩ := ih _ _ _ _ _ h
        refine ⟨r ++ v, ?_, Matches.starCons hop hs ?_ hv2⟩
        · rw [hv1, goAppend_toList]
          simp [Slice.toList]
        · exact hsyn c (List.mem_singleton_self c) _ _ _ _ h1

theorem concatLoop_sound {syn : Int → Regexp → List Slice → Rand → Outcome}
    {caps : List Slice} (l : List Regexp) :
    SoundOn syn caps l →
    ∀ (prev : Int) (res : Slice) (g : Rand) (out : List Int) (g1 : Rand) (re : Regexp),
      re.op = .concat → re.sub = l →
      concatLoop syn caps l prev res g = .ok (some out, g1) →
      ∃ v, out = res.toList ++ v ∧ Matches re v := by
  induction l with
  | nil =>
    intro _ prev res g out g1 re hop hs h
    simp only [concatLoop] at h
    injection h with h
    injection h with h h2
    subst h
    exact ⟨[], by simp [Slice.toList], Matches.concatNil hop hs⟩
  | cons s rest ih =>
    intro hsyn prev res g out g1 re hop hs h
    simp only [concatLoop] at h
    cases h1 : syn (updPrev prev res) s caps g with
    | error e => rw [h1] at h; cases h
    | ok v =>
      obtain ⟨r, g2⟩ := v
      rw [h1] at h
      cases r with
      | none => cases h
      | some r =>
        obtain ⟨v, hv1, hv2⟩ := ih (fun c hc => hsyn c (List.mem_cons_of_mem _ hc)) _ _ _ _ _
          (mk .concat rest none 0 0 0) rfl rfl h
        refine ⟨r ++ v, ?_, Matches.concatCons hop hs ?_ hv2⟩
        · rw [hv1, goAppend_toList]
          simp [Slice.toList]
        · exact hsyn s (List.mem_cons_self _ _) _ _ _ _ h1

theorem altLoop_sound {syn : Int → Regexp → List Slice → Rand → Outcome} {caps : List Slice}
    {re : Regexp} (hop : re.op = .alternate) (hsyn : SoundOn syn caps re.sub) (prev : Int)
    (k : Nat) :
    ∀ (i : Nat) (g : Rand) (out : List Int) (g1 : Rand),
      altLoop syn prev re caps k i g = .ok (some out, g1) → Matches re out := by
  induction k with
  | zero =>
    intro i g out g1 h
    simp [altLoop] at h
  | succ k ih =>
    intro i g out g1 h
    simp only [altLoop] at h
    cases hs : re.sub[i]? with
    | none => rw [hs] at h; cases h
    | some s =>
      rw [hs] at h
      simp only [] at h
      cases h1 : syn prev s caps g with
      | error e => rw [h1] at h; cases h
      | ok v =>
        obtain ⟨r, g2⟩ := v
        rw [h1] at h
        cases r with
        | none => exact ih _ _ _ _ h
        | some r =>
          injection h with h
          injection h with h h2
          injection h with h
          subst h
          exact Matches.alternate hop (List.getElem?_mem hs)
            (hsyn s (List.getElem?_mem hs) _ _ _ _ h1)

/-- Soundness of `synth` on the anchor-free fragment, for any fuel and any previous
character: a non-nil result is a word of the tree. -/
theorem synth_sound (caps : List Slice) (hcaps : ∀ x, x ∈ caps → x = none) :
    ∀ (fuel : Nat) (re : Regexp), AnchorFree re →
      ∀ (prev : Int) (g : Rand) (w : List Int) (g1 : Rand),
        synth fuel prev re caps g = .ok (some w, g1) → Matches re w := by
  intro fuel
  induction fuel with
  | zero => intro re _ prev g w g1 h; simp [synth] at h
  | succ f ih =>
    intro re hre prev g w g1 h
    rw [synth] at h
    cases hre with
    | emptyMatch hop =>
      simp only [hop, synthEmptyMatch] at h
      injection h with h
      injection h with h h2
      injection h with h
      subst h
      exact Matches.emptyMatch hop
    | literal hop hr hne =>
      simp only [hop, synthLiteral, hr] at h
      injection h with h
      injection h with h h2
      injection h with h
      subst h
      exact Matches.literal hop hr
    | charClass hop hr hne hp =>
      simp only [hop, synthCharClass, hr, Slice.toList] at h
      cases h1 : expandRanges _ with
      | error e => rw [h1] at h; cases h
      | ok runes =>
        rw [h1] at h
        simp only [] at h
        cases h2 : intn runes.length g with
        | error e => rw [h2] at h; cases h
        | ok v =>
          obtain ⟨i, g2⟩ := v
          rw [h2] at h
          simp only [] at h
          cases h3 : runes[i.toNat]? with
          | none => rw [h3] at h; cases h
          | some c =>
            rw [h3] at h
            injection h with h
            injection h with h h4
            injection h with h
            subst h
            obtain ⟨p, hp1, hp2, hp3⟩ := expandRanges_mem _ _ h1 hp (List.getElem?_mem h3)
            exact Matches.charClass hop (by rw [hr]; exact hp1) hp2 hp3
    | capture hop hs hc =>
      have hsub : synthSub0 (synth f) prev re caps g = .ok (some w, g1) → Matches re w := by
        intro h0
        simp only [synthSub0, hs] at h0
        exact Matches.capture hop hs (ih _ hc _ _ _ _ h0)
      simp only [hop, synthCapture] at h
      by_cases h1 : re.cap ≤ (caps.length : Int)
      · rw [if_pos h1] at h
        by_cases h2 : re.cap - 1 < 0
        · rw [if_pos h2] at h
          cases h
        · rw [if_neg h2] at h
          cases h3 : caps[(re.cap - 1).toNat]? with
          | none => rw [h3] at h; cases h
          | some x =>
            have := hcaps x (List.getElem?_mem h3)
            subst this
            rw [h3] at h
            exact hsub h
      · rw [if_neg h1] at h
        exact hsub h
    | star hop hs hc =>
      rename_i c
      simp only [hop, synthStar] at h
      cases h2 : intn 32 g with
      | error e => rw [h2] at h; cases h
      | ok v =>
        obtain ⟨n, g2⟩ := v
        rw [h2] at h
        simp only [] at h
        split_ifs at h with h3
        · injection h with h
          injection h with h h4
          injection h with h
          subst h
          exact Matches.starNil hop
        · have hsyn : SoundOn (synth f) caps [c] := by
            intro c1 hc1 p g3 w1 g4 h5
            rw [List.mem_singleton.1 hc1] at h5 ⊢
            exact ih _ hc _ _ _ _ h5
          obtain ⟨v, hv1, hv2⟩ := repLoop_sound hop hs hsyn _ _ _ _ _ _ h
          rw [hv1]
          simpa [Slice.toList] using hv2
    | quest hop hs hc =>
      rename_i c
      simp only [hop, synthQuest] at h
      cases h2 : intn 2 g with
      | error e => rw [h2] at h; cases h
      | ok v =>
        obtain ⟨n, g2⟩ := v
        rw [h2] at h
        simp only [] at h
        split_ifs at h with h3
        · simp only [synthSub0, hs] at h
          cases h4 : synth f prev c caps g2 with
          | error e => rw [h4] at h; cases h
          | ok v =>
            obtain ⟨r, g3⟩ := v
            rw [h4] at h
            cases r with
            | none => cases h
            | some r =>
              simp only [goAppend, List.nil_append] at h
              injection h with h
              injection h with h h5
              injection h with h
              subst h
              exact Matches.questOne hop hs (ih _ hc _ _ _ _ h4)
        · injection h with h
          injection h with h h4
          injection h with h
          subst h
          exact Matches.questNil hop
    | concat hop hc =>
      simp only [hop, synthConcat] at h
      have hsyn : SoundOn (synth f) caps re.sub := fun c1 hc1 p g3 w1 g4 h5 =>
        ih _ (hc c1 hc1) _ _ _ _ h5
      obtain ⟨v, hv1, hv2⟩ := concatLoop_sound re.sub hsyn _ _ _ _ _ re hop rfl h
      rw [hv1]
      simpa [Slice.toList] using hv2
    | alternate hop hc =>
      simp only [hop, synthAlternate] at h
      have hsyn : SoundOn (synth f) caps re.sub := fun c1 hc1 p g3 w1 g4 h5 =>
        ih _ (hc c1 hc1) _ _ _ _ h5
      cases h2 : intn re.sub.length g with
      | error e => rw [h2] at h; cases h
      | ok v =>
        obtain ⟨n, g2⟩ := v
        rw [h2] at h
        exact altLoop_sound hop hsyn _ _ _ _ _ _ h

/-! ## The entry point on the anchor-free fragment -/

/-- C1: soundness on the anchor-free fragment.  For a tree built only from EmptyMatch,
non-empty Literal, CharClass with a non-empty list of pairs `lo ≤ hi`, Star, Quest, Concat,
Alternate and Capture, an override list whose entries are all unset, and any random draws: if
`Synth` (previous character 0) returns a non-nil sequence `w`, then `w` belongs to the
language of the tree. -/
theorem Synth_sound_anchorFree (re : Regexp) (caps : List Slice) (g : Rand) (w : List Int)
    (hre : AnchorFree re) (hcaps : ∀ x, x ∈ caps → x = none)
    (h : Synth re caps g = .ok (some w)) : Matches re w := by
  unfold Synth value at h
  cases h1 : synth (re.depth + 1) 0 re caps g with
  | error e => rw [h1] at h; cases h
  | ok v =>
    obtain ⟨r, g1⟩ := v
    rw [h1] at h
    injection h with h
    subst h
    exact synth_sound caps hcaps _ re hre _ _ _ _ h1

theorem sampleTree_anchorFree : AnchorFree sampleTree := by
  refine AnchorFree.concat rfl ?_
  intro c hc
  simp only [sampleTree, cat, sub, List.mem_cons, List.mem_singleton, List.not_mem_nil,
    or_false] at hc
  rcases hc with rfl | rfl
  · refine AnchorFree.star rfl rfl (AnchorFree.charClass rfl rfl (by simp [classPairs]) ?_)
    intro p hp
    simp only [classPairs, List.mem_singleton] at hp
    subst hp
    decide
  · refine AnchorFree.capture rfl rfl (AnchorFree.alternate rfl ?_)
    intro c hc
    simp only [alt, sub, List.mem_cons, List.mem_singleton, List.not_mem_nil, or_false] at hc
    rcases hc with rfl | rfl
    · exact AnchorFree.emptyMatch rfl
    · exact AnchorFree.quest rfl rfl (AnchorFree.literal rfl rfl (by simp))

/-- Witness for C1: on `sampleTree` with one unset override and the draws 2, 3, 4, ... the entry
point returns `bc`, which therefore is a word of the tree. -/
theorem Synth_sound_anchorFree_witness :
    AnchorFree sampleTree ∧ (∀ x, x ∈ [(none : Slice)] → x = none) ∧
      Synth sampleTree [none] (fun i => i + 2) = .ok (some [98, 99]) ∧
      Matches sampleTree [98, 99] :=
  ⟨sampleTree_anchorFree, by simp, by decide,
    Synth_sound_anchorFree sampleTree [none] (fun i => i + 2) [98, 99] sampleTree_anchorFree
      (by simp) (by decide)⟩

/-! ## Plus -/

/-- C2 (the code at the failing input): `synth` sends `Plus` to `synthStar`, so with a first
draw of 0 the node `Plus(Literal("a"))` returns the empty sequence, zero repetitions; the
unused `synthPlus` returns one `a` on the same draw. -/
theorem plus_yields_empty :
    Synth (plus (lit [97])) [] (fun _ => 0) = .ok (some []) ∧
      value (synthPlus (synth 1) 0 (plus (lit [97])) [] (fun _ => 0)) = .ok (some [97]) := by
  constructor <;> decide

/-! ## Empty successes inside Concat and Star -/

/-- C3 (the code at the failing input): `Concat(EmptyMatch, EmptyMatch)` returns `nil`, the
failure signal, for every override list and all draws, although both children succeed with
the empty sequence; `Star(EmptyMatch)` returns `nil` when the drawn count is 1. -/
theorem concat_of_empty_children_fails (caps : List Slice) (g : Rand) :
    value (synth 1 0 (leaf .emptyMatch) caps g) = .ok (some []) ∧
      Synth (cat [leaf .emptyMatch, leaf .emptyMatch]) caps g = .ok none ∧
      Synth (star (leaf .emptyMatch)) caps (fun _ => 1) = .ok none := by
  refine ⟨rfl, rfl, ?_⟩
  rfl

/-! ## Capture overrides -/

/-- C4: capture override exactness.  For `Capture(index, child)` with `index ≥ 1` and an
override list whose entry at position `index-1` is set to `v`, `synth` returns exactly `v`
for every child, previous character and random source, and leaves the random source
untouched: the child is not generated. -/
theorem capture_override_exact (fuel : Nat) (prev index : Int) (child : Regexp)
    (caps : List Slice) (v : List Int) (g : Rand) (hi : 1 ≤ index)
    (hset : caps[(index - 1).toNat]? = some (some v)) :
    synth (fuel + 1) prev (capt index child) caps g = .ok (some v, g) := by
  have hlen : (index - 1).toNat < caps.length := by
    rcases List.getElem?_eq_some.1 hset with ⟨h, _⟩
    exact h
  have h1 : index ≤ (caps.length : Int) := by omega
  have h2 : ¬ (index - 1 < 0) := by omega
  simp only [synth, capt, op, synthCapture, cap, if_pos h1, if_neg h2, hset]

/-- Witness for C4: `Capture(1, NoMatch)` with the override list `["XYZ"]` returns `XYZ`. -/
theorem capture_override_exact_witness :
    (1 : Int) ≤ 1 ∧ [some [88, 89, 90]][((1 : Int) - 1).toNat]? = some (some [88, 89, 90]) ∧
      value (synth 1 7 (capt 1 (leaf .noMatch)) [some [88, 89, 90]] (fun _ => 5))
        = .ok (some [88, 89, 90]) :=
  ⟨by decide, by decide, by
    rw [capture_override_exact 0 7 1 (leaf .noMatch) [some [88, 89, 90]] [88, 89, 90]
      (fun _ => 5) (by decide) (by decide)]
    rfl⟩

/-- C5: unset or missing overrides fall through to the child.  For `Capture(index, child)`
with `index ≥ 1` and an override list that is shorter than `index` or has an unset entry at
position `index-1`, `synth` on the Capture node is `synth` on the child with the same
previous character, overrides and random source, at every fuel above the depth of the node;
in particular the node adds no out-of-range access (no panic of its own). -/
theorem capture_unset_falls_through (fuel : Nat) (prev index : Int) (child : Regexp)
    (caps : List Slice) (g : Rand) (hi : 1 ≤ index)
    (hun : (caps.length : Int) < index ∨ caps[(index - 1).toNat]? = some none)
    (hfuel : (capt index child).depth < fuel) :
    synth fuel prev (capt index child) caps g = synth fuel prev child caps g := by
  have hd : (capt index child).depth = child.depth + 1 := by
    simp [capt, depth, depthList]
  obtain ⟨f, rfl⟩ : ∃ f, fuel = f + 1 := ⟨fuel - 1, by omega⟩
  rw [← synth_fuel_succ caps f child (by omega) prev g]
  have h2 : ¬ (index - 1 < 0) := by omega
  rcases hun with h | h
  · have h1 : ¬ (index ≤ (caps.length : Int)) := by omega
    simp only [synth, capt, op, synthCapture, cap, if_neg h1, synthSub0, sub]
  · by_cases h1 : index ≤ (caps.length : Int)
    · simp only [synth, capt, op, synthCapture, cap, if_pos h1, if_neg h2, h, synthSub0, sub]
    · simp only [synth, capt, op, synthCapture, cap, if_neg h1, synthSub0, sub]

/-- Witness for C5: `Capture(2, Literal("c"))` with the one-entry list `[unset]` (shorter than
the index) generates the child, here `c`. -/
theorem capture_unset_falls_through_witness :
    (1 : Int) ≤ 2 ∧ ((([none] : List Slice).length : Int) < 2) ∧
      (capt 2 (lit [99])).depth < 2 ∧
      synth 2 0 (capt 2 (lit [99])) [none] (fun _ => 0)
        = synth 2 0 (lit [99]) [none] (fun _ => 0) ∧
      value (synth 2 0 (lit [99]) [none] (fun _ => 0)) = .ok (some [99]) :=
  ⟨by decide, by decide, by decide,
    capture_unset_falls_through 2 0 2 (lit [99]) [none] (fun _ => 0)
      (by decide) (Or.inl (by decide)) (by decide), by decide⟩

/-! ## Loops over a literal child -/

theorem synth_lit (fuel : Nat) (prev : Int) (s : List Int) (caps : List Slice) (g : Rand) :
    synth (fuel + 1) prev (lit s) caps g = .ok (some s, g) := rfl

theorem synth_capture_eq (f : Nat) (prev : Int) (re : Regexp) (caps : List Slice) (g : Rand)
    (h : re.op = .capture) :
    synth (f + 1) prev re caps g = synthCapture (synth f) prev re caps g := by
  rw [synth]; simp only [h]

theorem synth_star_eq (f : Nat) (prev : Int) (re : Regexp) (caps : List Slice) (g : Rand)
    (h : re.op = .star) :
    synth (f + 1) prev re caps g = synthStar (synth f) prev re caps g := by
  rw [synth]; simp only [h]

theorem synth_plus_eq (f : Nat) (prev : Int) (re : Regexp) (caps : List Slice) (g : Rand)
    (h : re.op = .plus) :
    synth (f + 1) prev re caps g = synthStar (synth f) prev re caps g := by
  rw [synth]; simp only [h]

theorem synth_quest_eq (f : Nat) (prev : Int) (re : Regexp) (caps : List Slice) (g : Rand)
    (h : re.op = .quest) :
    synth (f + 1) prev re caps g = synthQuest (synth f) prev re caps g := by
  rw [synth]; simp only [h]

theorem synth_repeat_eq (f : Nat) (prev : Int) (re : Regexp) (caps : List Slice) (g : Rand)
    (h : re.op = .repeatN) :
    synth (f + 1) prev re caps g = synthRepeat (synth f) prev re caps g := by
  rw [synth]; simp only [h]

theorem synth_concat_eq (f : Nat) (prev : Int) (re : Regexp) (caps : List Slice) (g : Rand)
    (h : re.op = .concat) :
    synth (f + 1) prev re caps g = synthConcat (synth f) prev re caps g := by
  rw [synth]; simp only [h]

theorem synth_alternate_eq (f : Nat) (prev : Int) (re : Regexp) (caps : List Slice)
    (g : Rand) (h : re.op = .alternate) :
    synth (f + 1) prev re caps g = synthAlternate (synth f) prev re caps g := by
  rw [synth]; simp only [h]

theorem synth_begin_eq (f : Nat) (prev : Int) (re : Regexp) (caps : List Slice) (g : Rand)
    (h : re.op = .beginLine ∨ re.op = .beginText) :
    synth (f + 1) prev re caps g = synthBeginText prev g := by
  rw [synth]
  rcases h with h | h <;> simp only [h]

theorem subGoInt_of_nonneg (a b : Int) (h : 0 ≤ b) : subGoInt a b = a - b := by
  unfold subGoInt
  rw [if_neg (by omega)]

theorem intn_pos (n : Int) (g : Rand) (h : 0 < n) :
    intn n g = .ok (((g 0 : Nat) : Int) % n, g.tail) := by
  unfold intn
  rw [if_neg (by omega)]

theorem repLoop_lit_some (re : Regexp) (s : List Int) (t : List Regexp)
    (hs : re.sub = lit s :: t) (f : Nat) (caps : List Slice) (n : Nat) :
    ∀ (prev : Int) (a : List Int) (g : Rand),
      repLoop (synth (f + 1)) re caps n prev (some a) g
        = .ok (some (a ++ (List.replicate n s).flatten), g) := by
  induction n with
  | zero => intro prev a g; simp [repLoop]
  | succ n ih =>
    intro prev a g
    simp only [repLoop, synthSub0, hs, synth_lit, goAppend]
    rw [ih]
    simp [List.replicate_succ]

theorem repLoop_lit_none (re : Regexp) (s : List Int) (t : List Regexp)
    (hs : re.sub = lit s :: t) (hne : s ≠ []) (f : Nat) (caps : List Slice) (n : Nat)
    (prev : Int) (g : Rand) :
    repLoop (synth (f + 1)) re caps (n + 1) prev none g
      = .ok (some ((List.replicate (n + 1) s).flatten), g) := by
  obtain ⟨x, xs, rfl⟩ : ∃ x xs, s = x :: xs := by
    cases s with
    | nil => exact absurd rfl hne
    | cons x xs => exact ⟨x, xs, rfl⟩
  simp only [repLoop, synthSub0, hs, synth_lit, goAppend]
  rw [repLoop_lit_some re (x :: xs) t hs]
  simp [List.replicate_succ]

/-- What `Star(Literal(s))` returns: `s` repeated (first draw mod 32) times. -/
theorem star_lit_value (fuel : Nat) (prev : Int) (s : List Int) (caps : List Slice)
    (g : Rand) (hne : s ≠ []) :
    value (synth (fuel + 2) prev (Regexp.star (lit s)) caps g)
      = .ok (some (List.replicate (g 0 % 32) s).flatten) := by
  have hn : ((g 0 : Nat) : Int) % 32 = ((g 0 % 32 : Nat) : Int) := by omega
  rw [synth_star_eq _ _ (Regexp.star (lit s)) _ _ rfl]
  simp only [synthStar]
  rw [intn_pos 32 g (by decide), hn]
  simp only []
  by_cases h0 : g 0 % 32 = 0
  · rw [if_pos (by omega), h0]
    rfl
  · rw [if_neg (by omega)]
    obtain ⟨k, hk⟩ : ∃ k, g 0 % 32 = k + 1 := ⟨g 0 % 32 - 1, by omega⟩
    rw [hk, Int.toNat_ofNat, repLoop_lit_none (Regexp.star (lit s)) s [] rfl hne]
    rfl

/-- What `Repeat(Literal(s), min, max)` returns when the resolved `max` exceeds `min`. -/
theorem rep_lit_value (fuel : Nat) (prev : Int) (s : List Int) (mn mx : Int)
    (caps : List Slice) (g : Rand) (h0 : 0 ≤ mn) (hlt : mn < (if mx = -1 then 32 else mx)) :
    value (synth (fuel + 2) prev (rep (lit s) mn mx) caps g)
      = .ok (some (List.replicate
          (((g 0 : Nat) : Int) % ((if mx = -1 then 32 else mx) - mn) + mn).toNat s).flatten) := by
  rw [synth_repeat_eq _ _ (rep (lit s) mn mx) _ _ rfl]
  simp only [synthRepeat, rep, Regexp.min, Regexp.max]
  rw [subGoInt_of_nonneg _ mn h0, if_neg (by omega), intn_pos _ g (by omega)]
  simp only []
  rw [repLoop_lit_some (mk .repeatN [lit s] none mn mx 0) s [] rfl]
  rfl

/-! ## Line-start anchors -/

/-- After a literal whose last character is not U+0000 the anchor fails, and with it the
concatenation. -/
theorem anchor_after_text_fails (o : Op) (s t : List Int) (c : Int) (caps : List Slice)
    (g : Rand) (ho : o = .beginLine ∨ o = .beginText) (hs : s.getLast? = some c)
    (hc : c ≠ 0) :
    Synth (cat [lit s, leaf o, lit t]) caps g = .ok none := by
  obtain ⟨x, xs, rfl⟩ : ∃ x xs, s = x :: xs := by
    cases s with
    | nil => simp at hs
    | cons x xs => exact ⟨x, xs, rfl⟩
  show value (synth 2 0 (cat [lit (x :: xs), leaf o, lit t]) caps g) = .ok none
  rw [synth_concat_eq _ _ (cat [lit (x :: xs), leaf o, lit t]) _ _ rfl]
  simp only [synthConcat, cat, sub, concatLoop, synth_lit, goAppend, updPrev, hs]
  rw [synth_begin_eq 0 c (leaf o) caps g (by simpa [leaf, op] using ho)]
  simp only [synthBeginText, if_neg hc]
  rfl

/-- C6 (the code at the failing input): the start sentinel is the character U+0000, so after
the literal `"\x00"` the anchor still sees "no previous character" and
`Concat(Literal("\x00"), BeginText, Literal("b"))` succeeds with `"\x00b"` for every override
list and all draws. -/
theorem anchor_after_nul_succeeds (caps : List Slice) (g : Rand) :
    Synth (cat [lit [0], leaf .beginText, lit [98]]) caps g = .ok (some [0, 98]) ∧
      Synth (cat [lit [0], leaf .beginLine, lit [98]]) caps g = .ok (some [0, 98]) :=
  ⟨rfl, rfl⟩

/-- C7: anchor at start succeeds.  For every non-empty literal `t`, every override list and
all draws, `Concat(BeginLineOrText, Literal(t))` synthesized from the entry point returns
exactly `t`. -/
theorem anchor_at_start_succeeds (o : Op) (t : List Int) (caps : List Slice) (g : Rand)
    (ho : o = .beginLine ∨ o = .beginText) (ht : t ≠ []) :
    Synth (cat [leaf o, lit t]) caps g = .ok (some t) := by
  obtain ⟨x, xs, rfl⟩ : ∃ x xs, t = x :: xs := by
    cases t with
    | nil => exact absurd rfl ht
    | cons x xs => exact ⟨x, xs, rfl⟩
  show value (synth 2 0 (cat [leaf o, lit (x :: xs)]) caps g) = .ok (some (x :: xs))
  rw [synth_concat_eq _ _ (cat [leaf o, lit (x :: xs)]) _ _ rfl]
  simp only [synthConcat, cat, sub, concatLoop, updPrev]
  rw [synth_begin_eq 0 0 (leaf o) caps g (by simpa [leaf, op] using ho)]
  simp only [synthBeginText, if_pos, goAppend, updPrev, synth_lit]
  rfl

/-- Witness for C7: `^b` yields `b`. -/
theorem anchor_at_start_succeeds_witness :
    Synth (cat [leaf .beginText, lit [98]]) [] (fun _ => 0) = .ok (some [98]) :=
  anchor_at_start_succeeds .beginText [98] [] (fun _ => 0) (Or.inr rfl) (by decide)

/-! ## Repeat -/

/-- C8 (counterexample): for `min == max` the range `max-min` is 0 and `rand.Intn(0)`
panics, so `Repeat(Literal("a"), 3, 3)` ends in a run-time panic instead of returning three
copies of `a`; likewise `Repeat(Literal("a"), 3, 1)`, where `max` is first raised to
`min`. -/
theorem repeat_exact_count_panics :
    Synth (rep (lit [97]) 3 3) [] (fun _ => 0) = .error .panic ∧
      Synth (rep (lit [97]) 3 1) [] (fun _ => 0) = .error .panic ∧
      ¬ (Synth (rep (lit [97]) 3 3) [] (fun _ => 0)
        = .ok (some (List.replicate 3 [97]).flatten)) := by
  refine ⟨rfl, rfl, by decide⟩

/-- C9: Repeat bounds.  For `Repeat(Literal(s), min, max)` with `s` non-empty and
`0 ≤ min < max`, every override list, previous character and random source, `synth` returns
`s` repeated `k` times with `min ≤ k < max`; with `max = -1` and `0 ≤ min < 32` the count
satisfies `min ≤ k < 32`. -/
theorem repeat_bounds (fuel : Nat) (prev : Int) (s : List Int) (mn mx : Int)
    (caps : List Slice) (g : Rand) (_hs : s ≠ []) (h0 : 0 ≤ mn) :
    (mn < mx → ∃ k : Nat, mn ≤ (k : Int) ∧ (k : Int) < mx ∧
        value (synth (fuel + 2) prev (rep (lit s) mn mx) caps g)
          = .ok (some (List.replicate k s).flatten)) ∧
      (mn < 32 → ∃ k : Nat, mn ≤ (k : Int) ∧ (k : Int) < 32 ∧
        value (synth (fuel + 2) prev (rep (lit s) mn (-1)) caps g)
          = .ok (some (List.replicate k s).flatten)) := by
  constructor
  · intro hlt
    have hmx : (if mx = -1 then (32 : Int) else mx) = mx := by rw [if_neg (by omega)]
    have h := rep_lit_value fuel prev s mn mx caps g h0 (by rw [hmx]; exact hlt)
    rw [hmx] at h
    have h1 := Int.emod_nonneg ((g 0 : Nat) : Int) (show mx - mn ≠ 0 by omega)
    have h2 := Int.emod_lt_of_pos ((g 0 : Nat) : Int) (show 0 < mx - mn by omega)
    exact ⟨_, by omega, by omega, h⟩
  · intro hlt
    have h := rep_lit_value fuel prev s mn (-1) caps g h0 (by rw [if_pos rfl]; exact hlt)
    rw [if_pos rfl] at h
    have h1 := Int.emod_nonneg ((g 0 : Nat) : Int) (show (32 : Int) - mn ≠ 0 by omega)
    have h2 := Int.emod_lt_of_pos ((g 0 : Nat) : Int) (show 0 < (32 : Int) - mn by omega)
    exact ⟨_, by omega, by omega, h⟩

/-- Witness for C9: `a{2,5}` and `a{30,}` on the constant draw 7. -/
theorem repeat_bounds_witness :
    (∃ k : Nat, (2 : Int) ≤ (k : Int) ∧ (k : Int) < 5 ∧
        value (synth 2 0 (rep (lit [97]) 2 5) [] (fun _ => 7))
          = .ok (some (List.replicate k [97]).flatten)) ∧
      (∃ k : Nat, (30 : Int) ≤ (k : Int) ∧ (k : Int) < 32 ∧
        value (synth 2 0 (rep (lit [97]) 30 (-1)) [] (fun _ => 7))
          = .ok (some (List.replicate k [97]).flatten)) :=
  ⟨(repeat_bounds 0 0 [97] 2 5 [] (fun _ => 7) (by decide) (by decide)).1 (by decide),
    (repeat_bounds 0 0 [97] 30 5 [] (fun _ => 7) (by decide) (by decide)).2 (by decide)⟩

/-! ## Star -/

/-- C10: Star bounds.  For `Star(Literal(s))` with `s` non-empty, every override list,
previous character and random source, `synth` succeeds with `s` repeated `k` times for some
`0 ≤ k ≤ 31`, and every such `k` is the result of some random source. -/
theorem star_bounds (fuel : Nat) (prev : Int) (s : List Int) (caps : List Slice)
    (hs : s ≠ []) :
    (∀ g : Rand, ∃ k : Nat, k ≤ 31 ∧
        value (synth (fuel + 2) prev (Regexp.star (lit s)) caps g)
          = .ok (some (List.replicate k s).flatten)) ∧
      (∀ k : Nat, k ≤ 31 → ∃ g : Rand,
        value (synth (fuel + 2) prev (Regexp.star (lit s)) caps g)
          = .ok (some (List.replicate k s).flatten)) := by
  constructor
  · intro g
    exact ⟨g 0 % 32, by omega, star_lit_value fuel prev s caps g hs⟩
  · intro k hk
    refine ⟨fun _ => k, ?_⟩
    have h := star_lit_value fuel prev s caps (fun _ => k) hs
    have hk2 : k % 32 = k := Nat.mod_eq_of_lt (by omega)
    simp only [hk2] at h
    exact h

/-- Witness for C10: `a*` returns between 0 and 31 copies of `a`, and 31 copies for some
random source. -/
theorem star_bounds_witness :
    (∃ k : Nat, k ≤ 31 ∧
        value (synth 2 0 (Regexp.star (lit [97])) [] (fun _ => 3))
          = .ok (some (List.replicate k [97]).flatten)) ∧
      (∃ g : Rand, value (synth 2 0 (Regexp.star (lit [97])) [] g)
          = .ok (some (List.replicate 31 [97]).flatten)) :=
  ⟨(star_bounds 0 0 [97] [] (by decide)).1 (fun _ => 3),
    (star_bounds 0 0 [97] [] (by decide)).2 31 (by decide)⟩

/-! ## Character classes -/

theorem expandRange_ok {lo hi : Int} (h1 : 0 ≤ lo) (h2 : lo ≤ MaxRune) (h3 : 0 ≤ hi)
    (h4 : hi ≤ MaxRune) : ∃ l, expandRange lo hi = .ok l ∧ l ≠ [] := by
  unfold expandRange
  dsimp only
  simp only [MaxRune, maxInt32] at *
  split_ifs with a b c d e f
  all_goals first
    | omega
    | (refine ⟨_, rfl, ?_⟩
       intro h
       have h5 := congrArg List.length h
       simp only [List.length_map, List.length_range, List.length_nil] at h5
       omega)

theorem expandRanges_ok : ∀ (rs : List Int),
    (∀ p, p ∈ classPairs rs →
      0 ≤ p.1 ∧ p.1 ≤ MaxRune ∧ 0 ≤ p.2 ∧ p.2 ≤ MaxRune) →
    ∃ l, expandRanges rs = .ok l ∧ (classPairs rs ≠ [] → l ≠ [])
  | [], _ => ⟨[], rfl, fun h => absurd rfl h⟩
  | [_], _ => ⟨[], rfl, fun h => absurd rfl h⟩
  | lo :: hi :: rest, hp => by
    obtain ⟨a1, a2, a3, a4⟩ := hp (lo, hi) (by simp [classPairs])
    obtain ⟨l1, hl1, hne1⟩ := expandRange_ok a1 a2 a3 a4
    obtain ⟨l2, hl2, _⟩ := expandRanges_ok rest (fun p hp0 => hp p (by simp [classPairs, hp0]))
    refine ⟨l1 ++ l2, ?_, ?_⟩
    · simp only [expandRanges, hl1, hl2]
    · intro _ h
      exact hne1 (List.append_eq_nil.1 h).1

/-- What `synthCharClass` does on a class whose bounds are characters: the drawn index is in
bounds and the result is the element at that index. -/
theorem synthCharClass_ok (re : Regexp) (g : Rand)
    (hne : classPairs re.rune.toList ≠ [])
    (hp : ∀ p, p ∈ classPairs re.rune.toList →
      0 ≤ p.1 ∧ p.1 ≤ MaxRune ∧ 0 ≤ p.2 ∧ p.2 ≤ MaxRune) :
    ∃ (runes : List Int) (i : Nat) (c : Int), expandRanges re.rune.toList = .ok runes ∧
      intn runes.length g = .ok ((i : Int), g.tail) ∧ i < runes.length ∧
      runes[i]? = some c ∧ synthCharClass re g = .ok (some [c], g.tail) := by
  obtain ⟨runes, hr, hne2⟩ := expandRanges_ok _ hp
  have hlen : 0 < runes.length := List.length_pos.2 (hne2 hne)
  have hi : g 0 % runes.length < runes.length := Nat.mod_lt _ hlen
  have hn : ((g 0 : Nat) : Int) % (runes.length : Int) = ((g 0 % runes.length : Nat) : Int) :=
    (Int.natCast_mod _ _).symm
  have hint : intn runes.length g = .ok (((g 0 % runes.length : Nat) : Int), g.tail) := by
    rw [intn_pos _ g (by omega), hn]
  refine ⟨runes, g 0 % runes.length, runes[g 0 % runes.length], hr, hint, hi,
    List.getElem?_eq_getElem hi, ?_⟩
  simp only [synthCharClass, hr, hint, Int.toNat_ofNat, List.getElem?_eq_getElem hi]

/-- C11: class membership.  For a CharClass node whose range list is a non-empty list of
inclusive pairs `lo ≤ hi` of characters (`0 ≤ lo`, `hi` at most the maximum character
`MaxRune`), every previous character, override list and random source: the index drawn into
the expanded set is in bounds, and `synth` succeeds with exactly one character `c` that lies
in one of the declared pairs. -/
theorem charClass_membership (fuel : Nat) (prev : Int) (rs : List Int) (caps : List Slice)
    (g : Rand) (hne : classPairs rs ≠ [])
    (hp : ∀ p, p ∈ classPairs rs → 0 ≤ p.1 ∧ p.1 ≤ p.2 ∧ p.2 ≤ MaxRune) :
    ∃ (runes : List Int) (i : Nat) (c : Int), expandRanges rs = .ok runes ∧
      intn runes.length g = .ok ((i : Int), g.tail) ∧
      i < runes.length ∧ runes[i]? = some c ∧
      synth (fuel + 1) prev (cls rs) caps g = .ok (some [c], g.tail) ∧
      ∃ p, p ∈ classPairs rs ∧ p.1 ≤ c ∧ c ≤ p.2 := by
  have hp2 : ∀ p, p ∈ classPairs (cls rs).rune.toList →
      0 ≤ p.1 ∧ p.1 ≤ MaxRune ∧ 0 ≤ p.2 ∧ p.2 ≤ MaxRune := by
    intro p hp0
    obtain ⟨a, b, c⟩ := hp p hp0
    exact ⟨a, by omega, by omega, c⟩
  obtain ⟨runes, i, c, h1, h2, h3, h4, h5⟩ := synthCharClass_ok (cls rs) g hne hp2
  refine ⟨runes, i, c, h1, h2, h3, h4, h5, ?_⟩
  exact expandRanges_mem rs runes h1 (fun p hp0 => (hp p hp0).2.1) (List.getElem?_mem h4)

/-- Witness for C11: the class with the pairs `97-99` and `200-MaxRune` on the draw 5 returns
one character of a declared pair. -/
theorem charClass_membership_witness :
    ∃ (runes : List Int) (i : Nat) (c : Int), expandRanges [97, 99, 200, 1114111] = .ok runes ∧
      intn runes.length (fun _ => 5) = .ok ((i : Int), Rand.tail (fun _ => 5)) ∧
      i < runes.length ∧ runes[i]? = some c ∧
      synth 1 0 (cls [97, 99, 200, 1114111]) [] (fun _ => 5)
        = .ok (some [c], Rand.tail (fun _ => 5)) ∧
      ∃ p, p ∈ classPairs [97, 99, 200, 1114111] ∧ p.1 ≤ c ∧ c ≤ p.2 :=
  charClass_membership 0 0 [97, 99, 200, 1114111] [] (fun _ => 5) (by simp [classPairs])
    (by
      intro p hp
      simp only [classPairs, List.mem_cons, List.mem_singleton, List.not_mem_nil,
        or_false] at hp
      rcases hp with rfl | rfl <;> decide)

/-! ## Literals -/

/-- C12: literal fidelity.  For a Literal node with non-empty sequence `s`, every previous
character, override list and random source, `synth` returns exactly `s` (and leaves the
random source untouched), and so does `Synth` on the tree made of that node alone. -/
theorem literal_fidelity (fuel : Nat) (prev : Int) (s : List Int) (caps : List Slice)
    (g : Rand) (_hs : s ≠ []) :
    synth (fuel + 1) prev (lit s) caps g = .ok (some s, g) ∧
      Synth (lit s) caps g = .ok (some s) :=
  ⟨rfl, rfl⟩

/-- Witness for C12: the literal `abc`. -/
theorem literal_fidelity_witness :
    synth 1 7 (lit [97, 98, 99]) [none] (fun _ => 4) = .ok (some [97, 98, 99], fun _ => 4) ∧
      Synth (lit [97, 98, 99]) [none] (fun _ => 4) = .ok (some [97, 98, 99]) :=
  literal_fidelity 0 7 [97, 98, 99] [none] (fun _ => 4) (by decide)

/-! ## Alternate -/

theorem altLoop_scan (f : Nat) (prev : Int) (re : Regexp) (caps : List Slice)
    (hl : ∀ c, c ∈ re.sub → NoMatchOrLit c) :
    ∀ (k i : Nat) (g : Rand), i < re.sub.length →
      ((∀ j, j < k → re.sub[(i + j) % re.sub.length]? = some (leaf .noMatch)) ∧
          altLoop (synth (f + 1)) prev re caps k i g = .ok (none, g)) ∨
        (∃ (j : Nat) (s : List Int), j < k ∧ s ≠ [] ∧
          re.sub[(i + j) % re.sub.length]? = some (lit s) ∧
          (∀ j2, j2 < j → re.sub[(i + j2) % re.sub.length]? = some (leaf .noMatch)) ∧
          altLoop (synth (f + 1)) prev re caps k i g = .ok (some s, g)) := by
  intro k
  induction k with
  | zero =>
    intro i g _
    exact Or.inl ⟨fun j hj => absurd hj (Nat.not_lt_zero _), rfl⟩
  | succ k ih =>
    intro i g hi
    have hc : re.sub[i]? = some re.sub[i] := List.getElem?_eq_getElem hi
    have hi0 : (i + 0) % re.sub.length = i := by
      rw [Nat.add_zero]; exact Nat.mod_eq_of_lt hi
    have hstep : ∀ j, ((i + 1) % re.sub.length + j) % re.sub.length
        = (i + (j + 1)) % re.sub.length := by
      intro j
      rw [Nat.mod_add_mod]
      congr 1
      omega
    rcases hl _ (List.getElem?_mem hc) with hnm | ⟨s, hs, hlit⟩
    · have hrun : altLoop (synth (f + 1)) prev re caps (k + 1) i g
          = altLoop (synth (f + 1)) prev re caps k ((i + 1) % re.sub.length) g := by
        simp only [altLoop, hc, hnm]
        rfl
      have hi2 : (i + 1) % re.sub.length < re.sub.length := Nat.mod_lt _ (by omega)
      rcases ih ((i + 1) % re.sub.length) g hi2 with
        ⟨hall, hres⟩ | ⟨j, s, hj, hs, hjs, hbefore, hres⟩
      · refine Or.inl ⟨?_, by rw [hrun, hres]⟩
        intro j hj
        cases j with
        | zero => rw [hi0, hc, hnm]
        | succ j => rw [← hstep j]; exact hall j (by omega)
      · refine Or.inr ⟨j + 1, s, by omega, hs, by rw [← hstep j]; exact hjs, ?_,
          by rw [hrun, hres]⟩
        intro j2 hj2
        cases j2 with
        | zero => rw [hi0, hc, hnm]
        | succ j2 => rw [← hstep j2]; exact hbefore j2 (by omega)
    · refine Or.inr ⟨0, s, by omega, hs, by rw [hi0, hc, hlit], ?_, ?_⟩
      · intro j2 hj2
        exact absurd hj2 (Nat.not_lt_zero _)
      · simp only [altLoop, hc, hlit]
        rfl

theorem synth_alt_eq_altLoop (fuel : Nat) (prev : Int) (l : List Regexp) (caps : List Slice)
    (g : Rand) (hne : l ≠ []) :
    synth (fuel + 2) prev (alt l) caps g
      = altLoop (synth (fuel + 1)) prev (alt l) caps l.length (g 0 % l.length) g.tail := by
  have hlen : 0 < l.length := List.length_pos.2 hne
  have hn : ((g 0 : Nat) : Int) % (l.length : Int) = ((g 0 % l.length : Nat) : Int) :=
    (Int.natCast_mod _ _).symm
  rw [synth_alternate_eq _ _ (alt l) _ _ rfl]
  simp only [synthAlternate, alt, sub]
  rw [intn_pos _ g (by omega), hn]
  simp only [Int.toNat_ofNat]

theorem lit_ne_noMatch (s : List Int) : lit s ≠ leaf .noMatch := by
  intro h
  have h2 := congrArg Regexp.op h
  simp [lit, leaf, op] at h2

/-- The two ways an Alternate over NoMatch and Literal children ends: all children are
NoMatch and the node fails, or the first Literal in cyclic order from the drawn index is
returned. -/
theorem alt_value_cases (fuel : Nat) (prev : Int) (l : List Regexp) (caps : List Slice)
    (g : Rand) (hne : l ≠ []) (hl : ∀ c, c ∈ l → NoMatchOrLit c) :
    ((∀ c, c ∈ l → c = leaf .noMatch) ∧
        value (synth (fuel + 2) prev (alt l) caps g) = .ok none) ∨
      (∃ (j : Nat) (s : List Int), j < l.length ∧ s ≠ [] ∧
        l[(g 0 % l.length + j) % l.length]? = some (lit s) ∧
        (∀ j2, j2 < j → l[(g 0 % l.length + j2) % l.length]? = some (leaf .noMatch)) ∧
        value (synth (fuel + 2) prev (alt l) caps g) = .ok (some s)) := by
  have hlen : 0 < l.length := List.length_pos.2 hne
  have hi : g 0 % l.length < l.length := Nat.mod_lt _ hlen
  rw [synth_alt_eq_altLoop fuel prev l caps g hne]
  rcases altLoop_scan fuel prev (alt l) caps hl l.length (g 0 % l.length) g.tail hi with
    ⟨hall, hres⟩ | ⟨j, s, hj, hs, hjs, hbefore, hres⟩
  · refine Or.inl ⟨?_, by rw [hres]; rfl⟩
    intro c hc
    rcases hl c hc with h | ⟨s, _, h⟩
    · exact h
    · exfalso
      obtain ⟨m, hm, hcm⟩ := List.getElem_of_mem hc
      have hidx : (g 0 % l.length + (m + l.length - g 0 % l.length) % l.length) % l.length
          = m := by
        rw [Nat.add_mod_mod]
        have e : g 0 % l.length + (m + l.length - g 0 % l.length) = m + l.length := by omega
        rw [e, Nat.add_mod_right]
        exact Nat.mod_eq_of_lt hm
      have h2 := hall ((m + l.length - g 0 % l.length) % l.length) (Nat.mod_lt _ hlen)
      simp only [alt, sub] at h2
      rw [hidx, List.getElem?_eq_getElem hm, hcm, h] at h2
      injection h2 with h2
      exact lit_ne_noMatch s h2
  · exact Or.inr ⟨j, s, hj, hs, hjs, hbefore, by rw [hres]; rfl⟩

/-- C13: Alternate finds any satisfiable branch and returns only a child's output.  For an
Alternate with at least one child, every child NoMatch or a non-empty Literal, and every
random start index: `synth` succeeds exactly when some child is a Literal; it fails exactly
when all children are NoMatch; and when some child is a Literal the result is the literal of
the first non-NoMatch child in cyclic order from the drawn index. -/
theorem alternate_first_satisfiable (fuel : Nat) (prev : Int) (l : List Regexp)
    (caps : List Slice) (g : Rand) (hne : l ≠ []) (hl : ∀ c, c ∈ l → NoMatchOrLit c) :
    ((∃ w, value (synth (fuel + 2) prev (alt l) caps g) = .ok (some w)) ↔
        ∃ s, lit s ∈ l) ∧
      (value (synth (fuel + 2) prev (alt l) caps g) = .ok none ↔
        ∀ c, c ∈ l → c = leaf .noMatch) ∧
      ((∃ s, lit s ∈ l) →
        ∃ (j : Nat) (s : List Int), j < l.length ∧ s ≠ [] ∧
          l[(g 0 % l.length + j) % l.length]? = some (lit s) ∧
          (∀ j2, j2 < j → l[(g 0 % l.length + j2) % l.length]? = some (leaf .noMatch)) ∧
          value (synth (fuel + 2) prev (alt l) caps g) = .ok (some s)) := by
  have hcases := alt_value_cases fuel prev l caps g hne hl
  refine ⟨⟨?_, ?_⟩, ⟨?_, ?_⟩, ?_⟩
  · rintro ⟨w, hw⟩
    rcases hcases with ⟨_, hres⟩ | ⟨j, s, _, _, hjs, _, _⟩
    · rw [hres] at hw
      cases hw
    · exact ⟨s, List.getElem?_mem hjs⟩
  · rintro ⟨s, hs⟩
    rcases hcases with ⟨hall, _⟩ | ⟨j, s2, _, _, _, _, hres⟩
    · exact absurd (hall _ hs) (lit_ne_noMatch s)
    · exact ⟨s2, hres⟩
  · intro hnone
    rcases hcases with ⟨hall, _⟩ | ⟨j, s2, _, _, _, _, hres⟩
    · exact hall
    · rw [hres] at hnone
      cases hnone
  · intro hall
    rcases hcases with ⟨_, hres⟩ | ⟨j, s2, _, _, hjs, _, _⟩
    · exact hres
    · exact absurd (hall _ (List.getElem?_mem hjs)) (lit_ne_noMatch s2)
  · rintro ⟨s, hs⟩
    rcases hcases with ⟨hall, _⟩ | h
    · exact absurd (hall _ hs) (lit_ne_noMatch s)
    · exact h

theorem sampleAlt_children :
    ∀ c, c ∈ [leaf .noMatch, lit [97], lit [98]] → NoMatchOrLit c := by
  intro c hc
  simp only [List.mem_cons, List.mem_singleton, List.not_mem_nil, or_false] at hc
  rcases hc with rfl | rfl | rfl
  · exact Or.inl rfl
  · exact Or.inr ⟨[97], by decide, rfl⟩
  · exact Or.inr ⟨[98], by decide, rfl⟩

/-- Witness for C13: `Alternate(NoMatch, Literal("a"), Literal("b"))` with start index 0 skips
the NoMatch child and returns `a`. -/
theorem alternate_first_satisfiable_witness :
    ∃ (j : Nat) (s : List Int), j < 3 ∧ s ≠ [] ∧
      [leaf .noMatch, lit [97], lit [98]][(0 % 3 + j) % 3]? = some (lit s) ∧
      (∀ j2, j2 < j →
        [leaf .noMatch, lit [97], lit [98]][(0 % 3 + j2) % 3]? = some (leaf .noMatch)) ∧
      value (synth 2 0 (alt [leaf .noMatch, lit [97], lit [98]]) [] (fun _ => 0))
        = .ok (some s) :=
  (alternate_first_satisfiable 0 0 [leaf .noMatch, lit [97], lit [98]] [] (fun _ => 0)
    (by simp) sampleAlt_children).2.2 ⟨[97], by simp⟩

/-! ## Failure propagation -/

theorem concatLoop_append {syn : Int → Regexp → List Slice → Rand → Outcome}
    {caps : List Slice} (rest : List Regexp) (pre : List Regexp) :
    ∀ (prev : Int) (res : Slice) (g : Rand) (p1 : Int) (r1 : Slice) (g1 : Rand),
      concatState syn caps pre prev res g = some (p1, r1, g1) →
      concatLoop syn caps (pre ++ rest) prev res g = concatLoop syn caps rest p1 r1 g1 := by
  induction pre with
  | nil =>
    intro prev res g p1 r1 g1 h
    simp only [concatState] at h
    injection h with h
    injection h with h1 h2
    injection h2 with h2 h3
    subst h1 h2 h3
    rfl
  | cons s pre ih =>
    intro prev res g p1 r1 g1 h
    simp only [concatState] at h
    simp only [List.cons_append, concatLoop]
    cases hs : syn (updPrev prev res) s caps g with
    | error e => rw [hs] at h; cases h
    | ok v =>
      obtain ⟨r, g2⟩ := v
      rw [hs] at h
      cases r with
      | none => cases h
      | some r => exact ih _ _ _ _ _ _ h

theorem repLoop_child_fails {syn : Int → Regexp → List Slice → Rand → Outcome}
    {caps : List Slice} {re c : Regexp} {t : List Regexp} (hs : re.sub = c :: t)
    (hc : AlwaysFails syn caps c) (n : Nat) (prev : Int) (res : Slice) (g : Rand) :
    ∃ g2, repLoop syn re caps (n + 1) prev res g = .ok (none, g2) := by
  obtain ⟨g1, h1⟩ := hc (updPrev prev res) g
  exact ⟨g1, by simp only [repLoop, synthSub0, hs, h1]⟩

/-- C14: failure propagation without partial output.  (1) In a Concat node, when the children
before `c` have been generated without failure and generating `c` (with the threaded
previous character) fails, the Concat fails: it returns `nil`, no partial sequence.
(2) `Concat(Literal(s), NoMatch)` always fails.  (3) A Star whose child always fails succeeds
with the empty sequence when the drawn count is 0 and fails when it is at least 1.
(4) The same for a Repeat whose child always fails, whenever a count is drawn, that is
whenever the bound `max-min` that reaches `rand.Intn` (`repeatWidth`) is positive. -/
theorem failure_propagates (f : Nat) (prev : Int) (re c : Regexp) (caps : List Slice)
    (g : Rand) :
    (∀ (pre post : List Regexp) (p1 : Int) (r1 : Slice) (g1 g2 : Rand),
        re.op = .concat → re.sub = pre ++ c :: post →
        concatState (synth f) caps pre prev none g = some (p1, r1, g1) →
        synth f (updPrev p1 r1) c caps g1 = .ok (none, g2) →
        synth (f + 1) prev re caps g = .ok (none, g2)) ∧
      (∀ s : List Int, s ≠ [] → Synth (cat [lit s, leaf .noMatch]) caps g = .ok none) ∧
      (∀ t : List Regexp, re.op = .star → re.sub = c :: t → AlwaysFails (synth f) caps c →
        (g 0 % 32 = 0 → synth (f + 1) prev re caps g = .ok (some [], g.tail)) ∧
        (1 ≤ g 0 % 32 → ∃ g2, synth (f + 1) prev re caps g = .ok (none, g2))) ∧
      (∀ t : List Regexp, re.op = .repeatN → re.sub = c :: t →
        AlwaysFails (synth f) caps c → 0 < repeatWidth re →
        (((g 0 : Nat) : Int) % repeatWidth re + re.min ≤ 0 →
          synth (f + 1) prev re caps g = .ok (some [], g.tail)) ∧
        (1 ≤ ((g 0 : Nat) : Int) % repeatWidth re + re.min →
          ∃ g2, synth (f + 1) prev re caps g = .ok (none, g2))) := by
  refine ⟨?_, ?_, ?_, ?_⟩
  · intro pre post p1 r1 g1 g2 hop hs hst hc
    rw [synth_concat_eq _ _ re _ _ hop]
    simp only [synthConcat, hs]
    rw [concatLoop_append _ _ _ _ _ _ _ _ hst]
    simp only [concatLoop, hc]
  · intro s _
    rfl
  · intro t hop hs hc
    have hn : ((g 0 : Nat) : Int) % 32 = ((g 0 % 32 : Nat) : Int) := by omega
    rw [synth_star_eq _ _ re _ _ hop]
    simp only [synthStar]
    rw [intn_pos 32 g (by decide), hn]
    simp only []
    constructor
    · intro h0
      rw [if_pos (by omega)]
    · intro h1
      rw [if_neg (by omega)]
      obtain ⟨k, hk⟩ : ∃ k, g 0 % 32 = k + 1 := ⟨g 0 % 32 - 1, by omega⟩
      rw [hk, Int.toNat_ofNat]
      exact repLoop_child_fails hs hc _ _ _ _
  · intro t hop hs hc hw
    have hdef : synthRepeat (synth f) prev re caps g
        = (match intn (repeatWidth re) g with
          | .error e => .error e
          | .ok (n, g1) => repLoop (synth f) re caps (n + re.min).toNat prev (some []) g1) :=
      rfl
    rw [synth_repeat_eq _ _ re _ _ hop, hdef, intn_pos _ g hw]
    simp only []
    generalize repeatWidth re = m
    constructor
    · intro h0
      have hz : (((g 0 : Nat) : Int) % m + re.min).toNat = 0 := by omega
      rw [hz]
      rfl
    · intro h1
      obtain ⟨k, hk⟩ : ∃ k : Nat, (((g 0 : Nat) : Int) % m + re.min).toNat = k + 1 :=
        ⟨(((g 0 : Nat) : Int) % m + re.min).toNat - 1, by omega⟩
      rw [hk]
      exact repLoop_child_fails hs hc _ _ _ _

theorem noMatch_alwaysFails (f : Nat) (caps : List Slice) :
    AlwaysFails (synth (f + 1)) caps (leaf .noMatch) :=
  fun _ g => ⟨g, rfl⟩

/-- Witness for C14: `Concat(Literal("a"), NoMatch)` fails at its second child; Star and
Repeat over NoMatch fail for a count of at least 1 and return the empty sequence for 0. -/
theorem failure_propagates_witness :
    synth 2 0 (cat [lit [97], leaf .noMatch]) [] (fun _ => 0) = .ok (none, fun _ => 0) ∧
      (∃ g2, synth 2 0 (Regexp.star (leaf .noMatch)) [] (fun _ => 3) = .ok (none, g2)) ∧
      synth 2 0 (Regexp.star (leaf .noMatch)) [] (fun _ => 0)
        = .ok (some [], Rand.tail (fun _ => 0)) ∧
      (∃ g2, synth 2 0 (rep (leaf .noMatch) 1 3) [] (fun _ => 0) = .ok (none, g2)) ∧
      synth 2 0 (rep (leaf .noMatch) 0 3) [] (fun _ => 0)
        = .ok (some [], Rand.tail (fun _ => 0)) :=
  ⟨(failure_propagates 1 0 (cat [lit [97], leaf .noMatch]) (leaf .noMatch) []
      (fun _ => 0)).1 [lit [97]] [] 0 (some [97]) (fun _ => 0) (fun _ => 0) rfl rfl rfl rfl,
    ((failure_propagates 1 0 (Regexp.star (leaf .noMatch)) (leaf .noMatch) []
      (fun _ => 3)).2.2.1 [] rfl rfl (noMatch_alwaysFails 0 [])).2 (by decide),
    ((failure_propagates 1 0 (Regexp.star (leaf .noMatch)) (leaf .noMatch) []
      (fun _ => 0)).2.2.1 [] rfl rfl (noMatch_alwaysFails 0 [])).1 (by decide),
    ((failure_propagates 1 0 (rep (leaf .noMatch) 1 3) (leaf .noMatch) []
      (fun _ => 0)).2.2.2 [] rfl rfl (noMatch_alwaysFails 0 []) (by decide)).2 (by decide),
    ((failure_propagates 1 0 (rep (leaf .noMatch) 0 3) (leaf .noMatch) []
      (fun _ => 0)).2.2.2 [] rfl rfl (noMatch_alwaysFails 0 []) (by decide)).1 (by decide)⟩

/-! ## Previous character across Star iterations -/

/-- What `Concat(BeginLineOrText, Literal(s))` returns for a non-empty `s`: `s` at the start
of the input, failure after a character other than U+0000. -/
theorem begin_then_lit (f : Nat) (prev : Int) (o : Op) (x : Int) (xs : List Int)
    (caps : List Slice) (g : Rand) (ho : o = .beginLine ∨ o = .beginText) :
    synth (f + 2) prev (cat [leaf o, lit (x :: xs)]) caps g
      = if prev = 0 then .ok (some (x :: xs), g) else .ok (none, g) := by
  rw [synth_concat_eq _ _ (cat [leaf o, lit (x :: xs)]) _ _ rfl]
  simp only [synthConcat, cat, sub, concatLoop, updPrev]
  rw [synth_begin_eq f prev (leaf o) caps g (by simpa [leaf, op] using ho)]
  simp only [synthBeginText]
  by_cases hp : prev = 0
  · simp only [if_pos hp, goAppend, updPrev, synth_lit]
  · simp only [if_neg hp]

/-- C18: the previous character is threaded between Star iterations.  For a non-empty
literal `s` whose last character is not U+0000, `Star(Concat(BeginLineOrText, Literal(s)))`
synthesized from the entry point returns the empty sequence when the drawn count is 0,
exactly `s` when it is 1, and fails when it is 2 or more. -/
theorem star_threads_prev (o : Op) (s : List Int) (c : Int) (caps : List Slice) (g : Rand)
    (ho : o = .beginLine ∨ o = .beginText) (hs : s.getLast? = some c) (hc : c ≠ 0) :
    (g 0 % 32 = 0 → Synth (Regexp.star (cat [leaf o, lit s])) caps g = .ok (some [])) ∧
      (g 0 % 32 = 1 → Synth (Regexp.star (cat [leaf o, lit s])) caps g = .ok (some s)) ∧
      (2 ≤ g 0 % 32 → Synth (Regexp.star (cat [leaf o, lit s])) caps g = .ok none) := by
  obtain ⟨x, xs, rfl⟩ : ∃ x xs, s = x :: xs := by
    cases s with
    | nil => simp at hs
    | cons x xs => exact ⟨x, xs, rfl⟩
  have hn : ((g 0 : Nat) : Int) % 32 = ((g 0 % 32 : Nat) : Int) := by omega
  have hrun : Synth (Regexp.star (cat [leaf o, lit (x :: xs)])) caps g
      = value (if g 0 % 32 = 0 then .ok (some [], g.tail)
          else repLoop (synth 2) (Regexp.star (cat [leaf o, lit (x :: xs)])) caps
            (g 0 % 32) 0 none g.tail) := by
    show value (synth 3 0 (Regexp.star (cat [leaf o, lit (x :: xs)])) caps g) = _
    rw [synth_star_eq _ _ (Regexp.star (cat [leaf o, lit (x :: xs)])) _ _ rfl]
    simp only [synthStar]
    rw [intn_pos 32 g (by decide), hn]
    simp only [Int.toNat_ofNat, Int.natCast_eq_zero]
  have hsub : (Regexp.star (cat [leaf o, lit (x :: xs)])).sub = [cat [leaf o, lit (x :: xs)]] :=
    rfl
  refine ⟨?_, ?_, ?_⟩
  · intro h0
    rw [hrun, if_pos h0]
    rfl
  · intro h1
    rw [hrun, if_neg (by omega), h1]
    simp only [repLoop, synthSub0, hsub, updPrev, begin_then_lit 0 0 o x xs caps _ ho,
      if_pos, goAppend]
    rfl
  · intro h2
    obtain ⟨k, hk⟩ : ∃ k, g 0 % 32 = k + 2 := ⟨g 0 % 32 - 2, by omega⟩
    rw [hrun, if_neg (by omega), hk]
    simp only [repLoop, synthSub0, hsub, updPrev, begin_then_lit 0 _ o x xs caps _ ho,
      if_pos, goAppend, hs, if_neg hc]
    rfl

/-- Witness for C18: `(?:^ab)*` with the drawn counts 0, 1 and 5. -/
theorem star_threads_prev_witness :
    Synth (Regexp.star (cat [leaf .beginText, lit [97, 98]])) [] (fun _ => 0)
        = .ok (some []) ∧
      Synth (Regexp.star (cat [leaf .beginText, lit [97, 98]])) [] (fun _ => 1)
        = .ok (some [97, 98]) ∧
      Synth (Regexp.star (cat [leaf .beginText, lit [97, 98]])) [] (fun _ => 5) = .ok none :=
  ⟨(star_threads_prev .beginText [97, 98] 98 [] (fun _ => 0) (Or.inr rfl) rfl
      (by decide)).1 (by decide),
    (star_threads_prev .beginText [97, 98] 98 [] (fun _ => 1) (Or.inr rfl) rfl
      (by decide)).2.1 (by decide),
    (star_threads_prev .beginText [97, 98] 98 [] (fun _ => 5) (Or.inr rfl) rfl
      (by decide)).2.2 (by decide)⟩

/-! ## Wildcards -/

theorem alphabet_length : Alphabet.length = 92 := by decide

theorem alphabet_init_no_newline : ∀ c, c ∈ Alphabet.take 91 → c ≠ 10 := by decide

/-- The element of the alphabet a wildcard picks for a bound `n` of at most 92. -/
theorem alphabet_pick (n : Nat) (g : Rand) (h0 : 0 < n) (hn : n ≤ 92) :
    ∃ c, intn (n : Int) g = .ok (((g 0 % n : Nat) : Int), g.tail) ∧
      Alphabet[g 0 % n]? = some c ∧ (Alphabet.take n)[g 0 % n]? = some c := by
  have hlt : g 0 % n < n := Nat.mod_lt _ h0
  have hlen : g 0 % n < Alphabet.length := by rw [alphabet_length]; omega
  have hm : ((g 0 : Nat) : Int) % (n : Int) = ((g 0 % n : Nat) : Int) :=
    (Int.natCast_mod _ _).symm
  refine ⟨Alphabet[g 0 % n], ?_, List.getElem?_eq_getElem hlen, ?_⟩
  · rw [intn_pos _ g (by omega), hm]
  · rw [List.getElem?_take_of_lt hlt]
    exact List.getElem?_eq_getElem hlen

theorem synthAnyCharNotNL_ok (g : Rand) :
    ∃ c, synthAnyCharNotNL g = .ok (some [c], g.tail) ∧ c ∈ Alphabet ∧ c ≠ 10 := by
  obtain ⟨c, h1, h2, h3⟩ := alphabet_pick 91 g (by decide) (by decide)
  refine ⟨c, ?_, List.getElem?_mem h2, alphabet_init_no_newline c (List.getElem?_mem h3)⟩
  unfold synthAnyCharNotNL
  rw [alphabet_length]
  have e : ((92 : Nat) : Int) - 1 = ((91 : Nat) : Int) := by decide
  rw [e, h1]
  simp only [Int.toNat_ofNat, h2]

theorem synthAnyChar_ok (g : Rand) :
    ∃ c, synthAnyChar g = .ok (some [c], g.tail) ∧ c ∈ Alphabet := by
  obtain ⟨c, h1, h2, _⟩ := alphabet_pick 92 g (by decide) (by decide)
  refine ⟨c, ?_, List.getElem?_mem h2⟩
  unfold synthAnyChar
  rw [alphabet_length, h1]
  simp only [Int.toNat_ofNat, h2]

/-- C15: wildcards.  With the default alphabet, for every previous character, override list
and random source, `synth` on AnyCharExcludingLineBreak succeeds with exactly one character
that is an element of the alphabet and differs from the line break (10), and `synth` on
AnyChar succeeds with exactly one element of the alphabet. -/
theorem wildcard_in_alphabet (fuel : Nat) (prev : Int) (caps : List Slice) (g : Rand) :
    (∃ c, synth (fuel + 1) prev (leaf .anyCharNotNL) caps g = .ok (some [c], g.tail) ∧
        c ∈ Alphabet ∧ c ≠ 10) ∧
      (∃ c, synth (fuel + 1) prev (leaf .anyChar) caps g = .ok (some [c], g.tail) ∧
        c ∈ Alphabet) :=
  ⟨synthAnyCharNotNL_ok g, synthAnyChar_ok g⟩

/-! ## Kinds without a case in the dispatch -/

/-- C20: unsupported node kinds are silently satisfied.  For a node of a kind without a case
in the dispatch (end of line, end of text, word boundary, no word boundary), `synth` returns
the non-nil empty sequence for every previous character, override list and random source;
consequently `Concat(Literal(s), EndText, Literal(t))` with non-empty `s` and `t` succeeds
with `s` followed by `t`. -/
theorem unsupported_kind_is_empty (fuel : Nat) (prev : Int) (re : Regexp)
    (caps : List Slice) (g : Rand) (s t : List Int)
    (hop : re.op = .endLine ∨ re.op = .endText ∨ re.op = .wordBoundary ∨
      re.op = .noWordBoundary)
    (hs : s ≠ []) (_ht : t ≠ []) :
    synth (fuel + 1) prev re caps g = .ok (some [], g) ∧
      synth (fuel + 2) prev (cat [lit s, leaf .endText, lit t]) caps g
        = .ok (some (s ++ t), g) ∧
      Synth (cat [lit s, leaf .endText, lit t]) caps g = .ok (some (s ++ t)) := by
  obtain ⟨x, xs, rfl⟩ : ∃ x xs, s = x :: xs := by
    cases s with
    | nil => exact absurd rfl hs
    | cons x xs => exact ⟨x, xs, rfl⟩
  have hcat : ∀ f p, synth (f + 2) p (cat [lit (x :: xs), leaf .endText, lit t]) caps g
      = .ok (some (x :: xs ++ t), g) := by
    intro f p
    rw [synth_concat_eq _ _ (cat [lit (x :: xs), leaf .endText, lit t]) _ _ rfl]
    simp only [synthConcat, cat, sub, concatLoop, synth_lit, goAppend]
    have he : ∀ q, synth (f + 1) q (leaf .endText) caps g = .ok (some [], g) := fun _ => rfl
    simp only [he, goAppend, List.append_nil, synth_lit]
  refine ⟨?_, hcat fuel prev, ?_⟩
  · rw [synth]
    rcases hop with h | h | h | h <;> simp only [h]
  · show value (synth 2 0 (cat [lit (x :: xs), leaf .endText, lit t]) caps g) = _
    rw [hcat 0 0]
    rfl

/-- Witness for C20: a word-boundary node yields the empty non-nil sequence and `a$b` yields
`ab`. -/
theorem unsupported_kind_is_empty_witness :
    synth 1 5 (leaf .wordBoundary) [] (fun _ => 0) = .ok (some [], fun _ => 0) ∧
      synth 2 5 (cat [lit [97], leaf .endText, lit [98]]) [] (fun _ => 0)
        = .ok (some ([97] ++ [98]), fun _ => 0) ∧
      Synth (cat [lit [97], leaf .endText, lit [98]]) [] (fun _ => 0)
        = .ok (some ([97] ++ [98])) :=
  unsupported_kind_is_empty 0 5 (leaf .wordBoundary) [] (fun _ => 0) [97] [98]
    (Or.inr (Or.inr (Or.inl rfl))) (by decide) (by decide)

/-! ## The number of child generations of a repetition node -/

theorem repLoopC_fst (syn : Int → Regexp → List Slice → Rand → Outcome) (re : Regexp)
    (caps : List Slice) (n : Nat) :
    ∀ (prev : Int) (res : Slice) (g : Rand),
      (repLoopC syn re caps n prev res g).1 = repLoop syn re caps n prev res g := by
  induction n with
  | zero => intro prev res g; rfl
  | succ n ih =>
    intro prev res g
    simp only [repLoopC, repLoop, synthSub0]
    cases re.sub with
    | nil => rfl
    | cons c t =>
      simp only []
      cases syn (updPrev prev res) c caps g with
      | error e => rfl
      | ok v =>
        obtain ⟨r, g1⟩ := v
        cases r with
        | none => rfl
        | some r => exact ih _ _ _

theorem repLoopC_snd_le (syn : Int → Regexp → List Slice → Rand → Outcome) (re : Regexp)
    (caps : List Slice) (n : Nat) :
    ∀ (prev : Int) (res : Slice) (g : Rand), (repLoopC syn re caps n prev res g).2 ≤ n := by
  induction n with
  | zero => intro prev res g; exact Nat.le_refl _
  | succ n ih =>
    intro prev res g
    simp only [repLoopC]
    cases re.sub with
    | nil => exact Nat.zero_le _
    | cons c t =>
      simp only []
      cases syn (updPrev prev res) c caps g with
      | error e => exact Nat.succ_le_succ (Nat.zero_le _)
      | ok v =>
        obtain ⟨r, g1⟩ := v
        cases r with
        | none => exact Nat.succ_le_succ (Nat.zero_le _)
        | some r => exact Nat.succ_le_succ (ih _ _ _)

/-- The counter is a ghost: the instrumented dispatch returns the outcome of `synth`. -/
theorem synthC_fst (fuel : Nat) (prev : Int) (re : Regexp) (caps : List Slice) (g : Rand) :
    (synthC fuel prev re caps g).1 = synth fuel prev re caps g := by
  cases fuel with
  | zero => rfl
  | succ f =>
    rw [synthC, synth]
    cases re.op with
    | star =>
      simp only [synthStarC, synthStar]
      cases intn 32 g with
      | error e => rfl
      | ok v =>
        obtain ⟨n, g1⟩ := v
        simp only []
        split
        · rfl
        · exact repLoopC_fst _ _ _ _ _ _ _
    | plus =>
      simp only [synthStarC, synthStar]
      cases intn 32 g with
      | error e => rfl
      | ok v =>
        obtain ⟨n, g1⟩ := v
        simp only []
        split
        · rfl
        · exact repLoopC_fst _ _ _ _ _ _ _
    | quest =>
      simp only [synthQuestC, synthQuest, synthSub0]
      cases intn 2 g with
      | error e => rfl
      | ok v =>
        obtain ⟨n, g1⟩ := v
        simp only []
        split
        · cases re.sub with
          | nil => rfl
          | cons c t =>
            simp only []
            cases synth f prev c caps g1 with
            | error e => rfl
            | ok w =>
              obtain ⟨r, g2⟩ := w
              cases r <;> rfl
        · rfl
    | repeatN =>
      simp only [synthRepeatC, synthRepeat]
      cases intn _ g with
      | error e => rfl
      | ok v =>
        obtain ⟨n, g1⟩ := v
        exact repLoopC_fst _ _ _ _ _ _ _
    | _ => rfl

theorem synthStarC_snd_le (syn : Int → Regexp → List Slice → Rand → Outcome) (prev : Int)
    (re : Regexp) (caps : List Slice) (g : Rand) :
    (synthStarC syn prev re caps g).2 ≤ 31 := by
  have hn : ((g 0 : Nat) : Int) % 32 = ((g 0 % 32 : Nat) : Int) := by omega
  simp only [synthStarC]
  rw [intn_pos 32 g (by decide), hn]
  simp only []
  split
  · exact Nat.zero_le _
  · have h := repLoopC_snd_le syn re caps (((g 0 % 32 : Nat) : Int)).toNat prev none g.tail
    rw [Int.toNat_ofNat] at h ⊢
    omega

theorem synthQuestC_snd_le (syn : Int → Regexp → List Slice → Rand → Outcome) (prev : Int)
    (re : Regexp) (caps : List Slice) (g : Rand) :
    (synthQuestC syn prev re caps g).2 ≤ 1 := by
  simp only [synthQuestC]
  cases intn 2 g with
  | error e => exact Nat.zero_le _
  | ok v =>
    obtain ⟨n, g1⟩ := v
    simp only []
    split
    · cases re.sub with
      | nil => exact Nat.zero_le _
      | cons c t =>
        simp only []
        cases syn prev c caps g1 with
        | error e => exact Nat.le_refl _
        | ok w =>
          obtain ⟨r, g2⟩ := w
          cases r <;> exact Nat.le_refl _
    · exact Nat.zero_le _

/-- The count of a Repeat node is 0, or below the maximum the loop count was drawn under. -/
theorem synthRepeatC_snd_lt (syn : Int → Regexp → List Slice → Rand → Outcome) (prev : Int)
    (re : Regexp) (caps : List Slice) (g : Rand) (h0 : 0 ≤ re.min) :
    (synthRepeatC syn prev re caps g).2 = 0 ∨
      (((synthRepeatC syn prev re caps g).2 : Nat) : Int) < resolvedMax re := by
  unfold resolvedMax
  simp only [synthRepeatC]
  rw [subGoInt_of_nonneg _ re.min h0]
  generalize (if re.max = -1 then (32 : Int) else re.max) = m
  by_cases hlt : m < re.min
  · left
    rw [if_pos hlt]
    simp only [intn, Int.sub_self, Int.le_refl, if_true]
  · rw [if_neg hlt]
    by_cases hpos : 0 < m - re.min
    · rw [intn_pos _ g hpos]
      simp only []
      have h := repLoopC_snd_le syn re caps
        (((g 0 : Nat) : Int) % (m - re.min) + re.min).toNat prev (some []) g.tail
      have h1 := Int.emod_nonneg ((g 0 : Nat) : Int) (show m - re.min ≠ 0 by omega)
      have h2 := Int.emod_lt_of_pos ((g 0 : Nat) : Int) hpos
      omega
    · left
      simp only [intn, if_pos (show m - re.min ≤ 0 by omega)]

/-- C16 (as amended): for every Star, Plus and Quest node, and every Repeat node with
`min ≥ 0` and `max = -1` or `max ≤ 33`, the number of times the node generates its child in
one evaluation is at most 32; for a Repeat node with `min ≥ 0` and any other `max` it is
less than `max`.  This holds for every fuel, previous character, override list and random
source. -/
theorem child_calls_bound (fuel : Nat) (prev : Int) (re : Regexp) (caps : List Slice)
    (g : Rand) (_hmin : 0 ≤ re.min) :
    ((re.op = .star ∨ re.op = .plus ∨ re.op = .quest) →
        childCalls fuel prev re caps g ≤ 32) ∧
      (re.op = .repeatN → (re.max = -1 ∨ re.max ≤ 33) →
        childCalls fuel prev re caps g ≤ 32) ∧
      (re.op = .repeatN → ¬ (re.max = -1 ∨ re.max ≤ 33) →
        ((childCalls fuel prev re caps g : Nat) : Int) < re.max) := by
  cases fuel with
  | zero =>
    refine ⟨fun _ => Nat.zero_le _, fun _ _ => Nat.zero_le _, fun _ h => ?_⟩
    show ((0 : Nat) : Int) < re.max
    omega
  | succ f =>
    unfold childCalls
    rw [synthC]
    refine ⟨?_, ?_, ?_⟩
    · rintro (h | h | h) <;> simp only [h]
      · have := synthStarC_snd_le (synth f) prev re caps g
        omega
      · have := synthStarC_snd_le (synth f) prev re caps g
        omega
      · have := synthQuestC_snd_le (synth f) prev re caps g
        omega
    · intro h hm
      simp only [h]
      have h1 := synthRepeatC_snd_lt (synth f) prev re caps g _hmin
      unfold resolvedMax at h1
      rcases hm with hm | hm
      · rw [if_pos hm] at h1
        omega
      · by_cases hm2 : re.max = -1
        · rw [if_pos hm2] at h1
          omega
        · rw [if_neg hm2] at h1
          omega
    · intro h hm
      simp only [h]
      have h1 := synthRepeatC_snd_lt (synth f) prev re caps g _hmin
      unfold resolvedMax at h1
      rw [if_neg (by omega)] at h1
      omega

/-- Witness for C16 (as amended): `a*` on the draw 31 generates its child 31 times, `a{2,9}`
on the draw 6 fewer than 33 times, and `a{40,50}` fewer than 50 times. -/
theorem child_calls_bound_witness :
    childCalls 2 0 (Regexp.star (lit [97])) [] (fun _ => 31) ≤ 32 ∧
      childCalls 2 0 (rep (lit [97]) 2 9) [] (fun _ => 6) ≤ 32 ∧
      ((childCalls 2 0 (rep (lit [97]) 40 50) [] (fun _ => 0) : Nat) : Int) < 50 :=
  ⟨(child_calls_bound 2 0 (Regexp.star (lit [97])) [] (fun _ => 31) (by decide)).1
      (Or.inl rfl),
    (child_calls_bound 2 0 (rep (lit [97]) 2 9) [] (fun _ => 6) (by decide)).2.1 rfl
      (Or.inr (by decide)),
    (child_calls_bound 2 0 (rep (lit [97]) 40 50) [] (fun _ => 0) (by decide)).2.2 rfl
      (by decide)⟩

/-- C16 (counterexample): `Repeat(Literal("a"), 40, 50)` with a first draw of 0 generates its
child 40 times in one evaluation, more than 32, and returns 40 copies of `a`. -/
theorem repeat_exceeds_cap :
    childCalls 2 0 (rep (lit [97]) 40 50) [] (fun _ => 0) = 40 ∧
      ¬ (childCalls 2 0 (rep (lit [97]) 40 50) [] (fun _ => 0) ≤ 32) ∧
      value (synth 2 0 (rep (lit [97]) 40 50) [] (fun _ => 0))
        = .ok (some (List.replicate 40 [97]).flatten) := by
  refine ⟨by decide, by decide, by decide⟩

/-! ## Overrides given as bytes -/

/-- C17 (the code at the failing input): on the tree of `(a)`, `SynthBytes` with the single
argument `nil` pins capture 1 to the empty sequence and returns the empty byte string, for
every random source; `Synth` with an unset entry and `SynthString` with a `nil` argument
generate the child and return `a`. -/
theorem synthBytes_nil_pins_empty (u : Utf8) (g : Rand) :
    SynthBytes u (capt 1 (lit [97])) [none] g = .ok [] ∧
      Synth (capt 1 (lit [97])) [none] g = .ok (some [97]) ∧
      SynthString u (capt 1 (lit [97])) [none] g = .ok (u.enc [97]) ∧
      SynthBytes asciiUtf8 (capt 1 (lit [97])) [none] g = .ok [] ∧
      SynthString asciiUtf8 (capt 1 (lit [97])) [none] g = .ok [97] := by
  have hb : ∀ v : Utf8, SynthBytes v (capt 1 (lit [97])) [none] g = .ok [] := by
    intro v
    have hrun : Synth (capt 1 (lit [97])) [some []] g = .ok (some []) := rfl
    simp only [SynthBytes, List.map, v.dec_nil, hrun, Slice.toList, v.enc_nil]
  exact ⟨hb u, rfl, rfl, hb asciiUtf8, rfl⟩

/-! ## No run-time error on well-formed trees -/

theorem synthSub0_ok {syn : Int → Regexp → List Slice → Rand → Outcome} {caps : List Slice}
    {re c : Regexp} (hs : re.sub = [c]) (h : OkOn syn caps re.sub) (prev : Int) (g : Rand) :
    ∃ r g1, synthSub0 syn prev re caps g = .ok (r, g1) := by
  simp only [synthSub0, hs]
  exact h c (by rw [hs]; exact List.mem_singleton_self c) prev g

theorem repLoop_ok {syn : Int → Regexp → List Slice → Rand → Outcome} {caps : List Slice}
    {re c : Regexp} (hs : re.sub = [c]) (h : OkOn syn caps re.sub) (n : Nat) :
    ∀ (prev : Int) (res : Slice) (g : Rand),
      ∃ r g1, repLoop syn re caps n prev res g = .ok (r, g1) := by
  induction n with
  | zero => intro prev res g; exact ⟨res, g, rfl⟩
  | succ n ih =>
    intro prev res g
    obtain ⟨r, g1, h1⟩ := synthSub0_ok hs h (updPrev prev res) g
    simp only [repLoop, h1]
    cases r with
    | none => exact ⟨none, g1, rfl⟩
    | some r => exact ih _ _ _

theorem concatLoop_ok {syn : Int → Regexp → List Slice → Rand → Outcome} {caps : List Slice}
    (l : List Regexp) (h : OkOn syn caps l) :
    ∀ (prev : Int) (res : Slice) (g : Rand),
      ∃ r g1, concatLoop syn caps l prev res g = .ok (r, g1) := by
  induction l with
  | nil => intro prev res g; exact ⟨res, g, rfl⟩
  | cons s rest ih =>
    intro prev res g
    obtain ⟨r, g1, h1⟩ := h s (List.mem_cons_self _ _) (updPrev prev res) g
    simp only [concatLoop, h1]
    cases r with
    | none => exact ⟨none, g1, rfl⟩
    | some r => exact ih (fun c hc => h c (List.mem_cons_of_mem _ hc)) _ _ _

theorem altLoop_ok {syn : Int → Regexp → List Slice → Rand → Outcome} {caps : List Slice}
    {re : Regexp} (h : OkOn syn caps re.sub) (prev : Int) (k : Nat) :
    ∀ (i : Nat) (g : Rand), i < re.sub.length →
      ∃ r g1, altLoop syn prev re caps k i g = .ok (r, g1) := by
  induction k with
  | zero => intro i g _; exact ⟨none, g, rfl⟩
  | succ k ih =>
    intro i g hi
    have hc : re.sub[i]? = some re.sub[i] := List.getElem?_eq_getElem hi
    obtain ⟨r, g1, h1⟩ := h _ (List.getElem?_mem hc) prev g
    simp only [altLoop, hc, h1]
    cases r with
    | none => exact ih _ _ (Nat.mod_lt _ (by omega))
    | some r => exact ⟨some r, g1, rfl⟩

/-- On a well-formed tree `synth` returns normally at every fuel above the depth. -/
theorem synth_ok (caps : List Slice) :
    ∀ (fuel : Nat) (re : Regexp), WellFormed re → re.depth < fuel →
      ∀ (prev : Int) (g : Rand), ∃ r g1, synth fuel prev re caps g = .ok (r, g1) := by
  intro fuel
  induction fuel with
  | zero => intro re _ h; exact absurd h (Nat.not_lt_zero _)
  | succ f ih =>
    intro re hwf hd prev g
    cases hwf with
    | node hsub hcls halt hcap hrep hmin =>
      have hok : OkOn (synth f) caps re.sub := fun c hc p g1 =>
        ih c (hsub c hc) (by have := depth_lt_of_mem_sub hc; omega) p g1
      rw [synth]
      cases hop : re.op with
      | noMatch => exact ⟨_, _, rfl⟩
      | emptyMatch => exact ⟨_, _, rfl⟩
      | literal => exact ⟨_, _, rfl⟩
      | charClass =>
        obtain ⟨h1, h2⟩ := hcls hop
        obtain ⟨runes, i, c, _, _, _, _, h3⟩ := synthCharClass_ok re g h1 h2
        exact ⟨_, _, h3⟩
      | anyCharNotNL =>
        obtain ⟨c, h, _⟩ := synthAnyCharNotNL_ok g
        exact ⟨_, _, h⟩
      | anyChar =>
        obtain ⟨c, h, _⟩ := synthAnyChar_ok g
        exact ⟨_, _, h⟩
      | beginLine =>
        simp only [synthBeginText]
        split <;> exact ⟨_, _, rfl⟩
      | beginText =>
        simp only [synthBeginText]
        split <;> exact ⟨_, _, rfl⟩
      | endLine => exact ⟨_, _, rfl⟩
      | endText => exact ⟨_, _, rfl⟩
      | wordBoundary => exact ⟨_, _, rfl⟩
      | noWordBoundary => exact ⟨_, _, rfl⟩
      | capture =>
        obtain ⟨h1, c, hs⟩ := hcap hop
        have hsub0 := synthSub0_ok hs hok prev g
        simp only [synthCapture]
        by_cases hle : re.cap ≤ (caps.length : Int)
        · rw [if_pos hle, if_neg (by omega)]
          have hidx : (re.cap - 1).toNat < caps.length := by omega
          rw [List.getElem?_eq_getElem hidx]
          cases caps[(re.cap - 1).toNat] with
          | none => exact hsub0
          | some v => exact ⟨_, _, rfl⟩
        · rw [if_neg hle]
          exact hsub0
      | star =>
        obtain ⟨c, hs⟩ := hrep (Or.inl hop)
        simp only [synthStar]
        rw [intn_pos 32 g (by decide)]
        simp only []
        split
        · exact ⟨_, _, rfl⟩
        · exact repLoop_ok hs hok _ _ _ _
      | plus =>
        obtain ⟨c, hs⟩ := hrep (Or.inr (Or.inl hop))
        simp only [synthStar]
        rw [intn_pos 32 g (by decide)]
        simp only []
        split
        · exact ⟨_, _, rfl⟩
        · exact repLoop_ok hs hok _ _ _ _
      | quest =>
        obtain ⟨c, hs⟩ := hrep (Or.inr (Or.inr (Or.inl hop)))
        simp only [synthQuest]
        rw [intn_pos 2 g (by decide)]
        simp only []
        split
        · obtain ⟨r, g1, h1⟩ := synthSub0_ok hs hok prev g.tail
          rw [h1]
          cases r with
          | none => exact ⟨_, _, rfl⟩
          | some r => exact ⟨_, _, rfl⟩
        · exact ⟨_, _, rfl⟩
      | repeatN =>
        obtain ⟨c, hs⟩ := hrep (Or.inr (Or.inr (Or.inr hop)))
        obtain ⟨h0, hlt⟩ := hmin hop
        unfold resolvedMax at hlt
        simp only [synthRepeat]
        rw [subGoInt_of_nonneg _ re.min h0]
        generalize (if re.max = -1 then (32 : Int) else re.max) = m at hlt ⊢
        rw [if_neg (show ¬ m < re.min by omega), intn_pos _ g (show 0 < m - re.min by omega)]
        exact repLoop_ok hs hok _ _ _ _
      | concat => exact concatLoop_ok _ hok _ _ _
      | alternate =>
        have hne := halt hop
        have hlen : 0 < re.sub.length := List.length_pos.2 hne
        have hn : ((g 0 : Nat) : Int) % (re.sub.length : Int)
            = ((g 0 % re.sub.length : Nat) : Int) := (Int.natCast_mod _ _).symm
        simp only [synthAlternate]
        rw [intn_pos _ g (by omega), hn]
        simp only [Int.toNat_ofNat]
        exact altLoop_ok hok _ _ _ _ (Nat.mod_lt _ hlen)

/-- C19: run-time-error freedom under well-formedness.  For every tree in which every
CharClass has at least one range pair (of characters, between 0 and `MaxRune`), every
Alternate has at least one child, every Capture has index at least 1 and one child, every
Star, Plus, Quest and Repeat has one child, and every Repeat has `min ≥ 0` and a resolved
`max` strictly above `min` (`WellFormed`), with the default alphabet, `synth` terminates for
every previous character, override list and random source at every fuel above the depth of
the tree, and returns normally: no index out of range and no call of the random source with
a non-positive bound (either would be the fault `panic`), and the fuel does not run out. -/
theorem wellFormed_no_runtime_error (fuel : Nat) (prev : Int) (re : Regexp)
    (caps : List Slice) (g : Rand) (hwf : WellFormed re) (hfuel : re.depth < fuel) :
    (∃ r g1, synth fuel prev re caps g = .ok (r, g1)) ∧
      synth fuel prev re caps g ≠ .error .panic ∧
      synth fuel prev re caps g ≠ .error .noFuel ∧
      ∃ r, Synth re caps g = .ok r := by
  obtain ⟨r, g1, h⟩ := synth_ok caps fuel re hwf hfuel prev g
  obtain ⟨r2, g2, h2⟩ := synth_ok caps (re.depth + 1) re hwf (Nat.lt_succ_self _) 0 g
  refine ⟨⟨r, g1, h⟩, by rw [h]; simp, by rw [h]; simp, r2, ?_⟩
  unfold Synth
  rw [h2]
  rfl

theorem sampleWF_wellFormed : WellFormed sampleWF := by
  have hcls : WellFormed (cls [97, 99]) := by
    refine WellFormed.node ?_ ?_ ?_ ?_ ?_ ?_
    · intro c hc
      simp [cls, sub] at hc
    · intro _
      refine ⟨by simp [cls, rune, Slice.toList, classPairs], ?_⟩
      intro p hp
      simp only [cls, rune, Slice.toList, classPairs, List.mem_singleton] at hp
      subst hp
      decide
    · intro h; simp [cls, op] at h
    · intro h; simp [cls, op] at h
    · intro h; simp [cls, op] at h
    · intro h; simp [cls, op] at h
  have hrep : WellFormed (rep (cls [97, 99]) 1 3) := by
    refine WellFormed.node ?_ ?_ ?_ ?_ ?_ ?_
    · intro c hc
      simp only [rep, sub, List.mem_singleton] at hc
      subst hc
      exact hcls
    · intro h; simp [rep, op] at h
    · intro h; simp [rep, op] at h
    · intro h; simp [rep, op] at h
    · intro _; exact ⟨_, rfl⟩
    · intro _; decide
  refine WellFormed.node ?_ ?_ ?_ ?_ ?_ ?_
  · intro c hc
    simp only [sampleWF, capt, sub, List.mem_singleton] at hc
    subst hc
    exact hrep
  · intro h; simp [sampleWF, capt, op] at h
  · intro h; simp [sampleWF, capt, op] at h
  · intro _; exact ⟨by decide, _, rfl⟩
  · intro h; simp [sampleWF, capt, op] at h
  · intro h; simp [sampleWF, capt, op] at h

/-- Witness for C19: the well-formed tree `([a-c]{1,3})` returns normally at
fuel 3, with one unset override and the draws 0, 1, 2, ... -/
theorem wellFormed_no_runtime_error_witness :
    WellFormed sampleWF ∧ sampleWF.depth < 3 ∧
      ((∃ r g1, synth 3 0 sampleWF [none] (fun i => i) = .ok (r, g1)) ∧
        synth 3 0 sampleWF [none] (fun i => i) ≠ .error .panic ∧
        synth 3 0 sampleWF [none] (fun i => i) ≠ .error .noFuel ∧
        ∃ r, Synth sampleWF [none] (fun i => i) = .ok r) :=
  ⟨sampleWF_wellFormed, by decide,
    wellFormed_no_runtime_error 3 0 sampleWF [none] (fun i => i) sampleWF_wellFormed
      (by decide)⟩

/-- Outside the range of characters the expansion of a class panics: with the bounds at the
ends of `int32` the length wraps to 0 and the first store is out of range, and with an upper
bound at the largest `int32` the loop variable wraps. -/
theorem charClass_beyond_characters_panics (caps : List Slice) (g : Rand) :
    Synth (cls [-2147483648, 2147483647]) caps g = .error .panic ∧
      Synth (cls [1, 2147483647]) caps g = .error .panic :=
  ⟨rfl, rfl⟩

/-! ## Exact counts of Repeat -/

theorem repLoopC_lit_snd (re : Regexp) (s : List Int) (t : List Regexp)
    (hs : re.sub = lit s :: t) (f : Nat) (caps : List Slice) (n : Nat) :
    ∀ (prev : Int) (a : List Int) (g : Rand),
      (repLoopC (synth (f + 1)) re caps n prev (some a) g).2 = n := by
  induction n with
  | zero => intro prev a g; rfl
  | succ n ih =>
    intro prev a g
    simp only [repLoopC, hs, synth_lit, goAppend]
    rw [ih]

/-- The draw of `synthRepeat` for `max = min + 1`: the bound is 1 and the drawn number 0. -/
theorem intn_single_width (n : Int) (g : Rand) (h0 : 0 ≤ n) :
    intn (subGoInt (if (if n + 1 = -1 then (32 : Int) else n + 1) < n then n
        else if n + 1 = -1 then (32 : Int) else n + 1) n) g = .ok (0, g.tail) := by
  have hm : (if n + 1 = -1 then (32 : Int) else n + 1) = n + 1 := if_neg (by omega)
  have hw : n + 1 - n = 1 := by omega
  rw [hm, if_neg (show ¬ (n + 1 < n) by omega), subGoInt_of_nonneg _ n h0, hw,
    intn_pos 1 g (by decide), Int.emod_one]

/-- C8 (as amended): exact repetition counts are produced through the half-open range.  For
every `Repeat(child, min, max)` with `min = n ≥ 0` and `max = n + 1`, every previous
character, override list and random source, `synth` draws the count `n`: its loop runs for
exactly `n` iterations; with a non-empty Literal child it returns normally and generates the
child exactly `n` times, so that `Repeat(Literal(s), 3, 4)` always returns `s` repeated 3
times. -/
theorem repeat_single_value_exact (fuel : Nat) (prev : Int) (s : List Int) (n : Int)
    (caps : List Slice) (g : Rand) (_hs : s ≠ []) (h0 : 0 ≤ n) :
    (∀ child : Regexp, synth (fuel + 1) prev (rep child n (n + 1)) caps g
        = repLoop (synth fuel) (rep child n (n + 1)) caps n.toNat prev (some []) g.tail) ∧
      value (synth (fuel + 2) prev (rep (lit s) n (n + 1)) caps g)
        = .ok (some (List.replicate n.toNat s).flatten) ∧
      childCalls (fuel + 2) prev (rep (lit s) n (n + 1)) caps g = n.toNat := by
  have hloop : ∀ (f : Nat) (child : Regexp), synth (f + 1) prev (rep child n (n + 1)) caps g
      = repLoop (synth f) (rep child n (n + 1)) caps n.toNat prev (some []) g.tail := by
    intro f child
    rw [synth_repeat_eq _ _ (rep child n (n + 1)) _ _ rfl]
    simp only [synthRepeat, rep, Regexp.min, Regexp.max]
    rw [intn_single_width n g h0]
    simp only [Int.zero_add]
  refine ⟨hloop fuel, ?_, ?_⟩
  · rw [hloop (fuel + 1) (lit s), repLoop_lit_some (rep (lit s) n (n + 1)) s [] rfl]
    rfl
  · unfold childCalls
    rw [synthC]
    simp only [rep, op, synthRepeatC, Regexp.min, Regexp.max]
    rw [intn_single_width n g h0]
    simp only [Int.zero_add]
    exact repLoopC_lit_snd (mk .repeatN [lit s] none n (n + 1) 0) s [] rfl _ caps _ _ _ _

/-- Witness for C8 (as amended): `Repeat(Literal("a"), 3, 4)` returns `aaa` and generates its
child 3 times. -/
theorem repeat_single_value_exact_witness :
    value (synth 2 0 (rep (lit [97]) 3 4) [] (fun _ => 9))
        = .ok (some (List.replicate (3 : Int).toNat [97]).flatten) ∧
      childCalls 2 0 (rep (lit [97]) 3 4) [] (fun _ => 9) = (3 : Int).toNat :=
  (repeat_single_value_exact 0 0 [97] 3 [] (fun _ => 9) (by decide) (by decide)).2

end Synthexp
